import Mathlib

/-!
Shallow embedding of the randomsound generator (source files
`random_music.py` and `en_musictester.py`): melody section generation,
composition assembly (BGM and SONG modes), the Markov-driven drum
scheduler with full/partial measure rendering, the bucketed pitch
mapper, and the music-type marker detector, together with theorems
settling the specification's claims.

Modelling conventions:
* Python integers are `Int`, or `Nat` where the source value is
  provably non-negative (tick totals, velocities, counters).
* Python strings are `List Char`; the relevant string methods
  (`strip`, `lower`, `splitlines`, `split`, `re.split`/`re.sub`) are
  embedded as recursive functions on `List Char`.
* The Markov probability literals (`0.4` etc.) and the draw of
  `random.random()` are exact rationals; with these tables the
  branching behaviour agrees with IEEE double evaluation.
* The process-wide random generator is an explicit stream: a function
  `g : Nat → Nat` (for `randint` / `choice` draws) or `q : Nat → ℚ`
  (for `random.random()` draws), consumed at an index counter that is
  threaded through every call in program order.
* Fallible operations (list indexing that can raise `IndexError`,
  dict lookup that can raise `KeyError`) return `Except Unit` or
  `Option`.
-/

/-- A MIDI-like track message as built by the source through
`mido.Message` / `mido.MetaMessage`; `time` is the delta time in ticks
(kept as `Int`, matching Python integer arithmetic). -/
inductive Msg
  | noteOn (note velocity : Nat) (time : Int) (channel : Nat)
  | noteOff (note velocity : Nat) (time : Int) (channel : Nat)
  | programChange (program channel : Nat) (time : Int)
  | controlChange (channel control value : Nat) (time : Int)
  | setTempo (tempo : Nat) (time : Int)
  deriving DecidableEq, Repr

/-- The delta-time field of a message. -/
def Msg.time : Msg → Int
  | .noteOn _ _ t _ => t
  | .noteOff _ _ t _ => t
  | .programChange _ _ t => t
  | .controlChange _ _ _ t => t
  | .setTempo _ t => t

/-- Sum of the delta times of a message list: the total tick length of
the corresponding track fragment. -/
def sumTimes (msgs : List Msg) : Int := (msgs.map Msg.time).sum

theorem sumTimes_nil : sumTimes [] = 0 := rfl

theorem sumTimes_cons (m : Msg) (l : List Msg) :
    sumTimes (m :: l) = m.time + sumTimes l := by
  simp [sumTimes]

theorem sumTimes_append (l₁ l₂ : List Msg) :
    sumTimes (l₁ ++ l₂) = sumTimes l₁ + sumTimes l₂ := by
  simp [sumTimes]

/-- `random.randint(lo, hi)` (both ends inclusive), drawn from stream
`g` at index `i`. -/
def randint (g : Nat → Nat) (i lo hi : Nat) : Nat := lo + g i % (hi + 1 - lo)

/-- `random.choice(l)`, drawn from stream `g` at index `i`.  Python
raises on an empty list; every call site in the source passes a
non-empty literal, for which the default `d` is never used. -/
def randChoice {α : Type} (g : Nat → Nat) (i : Nat) (l : List α) (d : α) : α :=
  l.getD (g i % l.length) d

theorem randint_le (g : Nat → Nat) (i lo hi : Nat) (h : lo ≤ hi) :
    lo ≤ randint g i lo hi ∧ randint g i lo hi ≤ hi := by
  unfold randint
  have h1 : g i % (hi + 1 - lo) < hi + 1 - lo := Nat.mod_lt _ (by omega)
  omega

/-- Whitespace as recognised by Python's `str.strip` / `str.split` /
`re`'s `\s` on ASCII input: space, tab, CR, LF, vertical tab, form
feed. -/
def isWs (c : Char) : Bool :=
  decide (c.toNat = 32 ∨ c.toNat = 9 ∨ c.toNat = 13 ∨ c.toNat = 10 ∨
    c.toNat = 11 ∨ c.toNat = 12)

/-- Python `str.strip()`: drop leading and trailing whitespace. -/
def pyStrip (l : List Char) : List Char :=
  ((l.dropWhile isWs).reverse.dropWhile isWs).reverse

/-- The line boundaries recognised by Python `str.splitlines()`:
`\n`, `\r`, `\v` (0x0b), `\f` (0x0c), FS/GS/RS (0x1c-0x1e), NEL
(0x85), LINE SEPARATOR (0x2028) and PARAGRAPH SEPARATOR (0x2029);
`\r\n` counts as a single boundary (handled in `splitlinesAux`). -/
def isLineBreak (c : Char) : Bool :=
  decide (c.toNat = 10 ∨ c.toNat = 13 ∨ c.toNat = 11 ∨ c.toNat = 12 ∨
    c.toNat = 28 ∨ c.toNat = 29 ∨ c.toNat = 30 ∨ c.toNat = 133 ∨
    c.toNat = 8232 ∨ c.toNat = 8233)

/-- Helper for `pySplitlines`: emit the accumulated line at every
boundary, treating `\r\n` (recognised by two-character lookahead) as
a single boundary; at the end of input the last line is emitted only
if it is non-empty — so the empty string has no lines and a trailing
boundary does not create a final empty line. -/
def splitlinesAux : List Char → List Char → List (List Char)
  | [], acc => if acc = [] then [] else [acc.reverse]
  | [c], acc =>
    if isLineBreak c then [acc.reverse]
    else [(c :: acc).reverse]
  | c :: c2 :: rest, acc =>
    if c.toNat = 13 ∧ c2.toNat = 10 then acc.reverse :: splitlinesAux rest []
    else if isLineBreak c then acc.reverse :: splitlinesAux (c2 :: rest) []
    else splitlinesAux (c2 :: rest) (c :: acc)

/-- Python `str.splitlines()` with its full set of line boundaries
(`isLineBreak`, with `\r\n` as a single boundary). -/
def pySplitlines (l : List Char) : List (List Char) := splitlinesAux l []

/-- Helper for `pySplitWs`, accumulating the current word reversed. -/
def splitWsAux : List Char → List Char → List (List Char)
  | [], acc => if acc = [] then [] else [acc.reverse]
  | c :: rest, acc =>
    if isWs c then
      if acc = [] then splitWsAux rest []
      else acc.reverse :: splitWsAux rest []
    else splitWsAux rest (c :: acc)

/-- Python `str.split()` with no separator: maximal non-whitespace
runs, with no empty pieces.  This also models the composite
`re.split(r"\s+", ln)` followed by the `if w.strip()` filter used by
the tokenizers, whose net result is exactly the non-whitespace runs. -/
def pySplitWs (l : List Char) : List (List Char) := splitWsAux l []

/-- `TYPE_INSTRUMENTS` from `random_music.py`: genre-keyed instrument
pools. -/
def TYPE_INSTRUMENTS : List (List Char × List Nat) :=
  [("rock".data,      [29, 30, 31, 24, 25]),
   ("metal".data,     [30, 31, 80, 81]),
   ("pop".data,       [0, 4, 24, 40, 73]),
   ("classical".data, [40, 41, 42, 43, 44, 45, 46]),
   ("default".data,   [0, 24, 32, 40, 56, 57, 72, 73, 74])]

/-- Dictionary key lookup over an association list (Python `dict`
lookup / membership). -/
def lookupTable {α : Type} (t : List (List Char × α)) (k : List Char) : Option α :=
  (t.find? (fun p => decide (p.1 = k))).map Prod.snd

/-- Helper for `array_split`: produce `k` parts of `l`, the first `r`
of size `q+1`, the remaining ones of size `q`. -/
def splitParts {α : Type} : List α → Nat → Nat → Nat → List (List α)
  | _, 0, _, _ => []
  | l, k+1, q, r =>
    if 0 < r then l.take (q + 1) :: splitParts (l.drop (q + 1)) k q (r - 1)
    else l.take q :: splitParts (l.drop q) k q 0

/-- `np.array_split(seq, n)`: `n` contiguous parts in order, the first
`len % n` of size `len / n + 1` and the rest of size `len / n`
(earlier parts absorb the remainder; trailing parts may be empty). -/
def array_split {α : Type} (l : List α) (n : Nat) : List (List α) :=
  splitParts l n (l.length / n) (l.length % n)

/-- The inner bucket search of `on_generate_midi`
(`en_musictester.py`): walk the split ranges with `enumerate`, return
the first index whose segment satisfies `seg[0] <= x <= seg[-1]`
(`break`), `none` if no segment matches, and raise `IndexError`
(`.error`) if an empty segment is reached, since `seg[0]` is evaluated
first. -/
def find_bucket : List (List Nat) → Nat → Except Unit (Option Nat)
  | [], _ => .ok none
  | seg :: rest, x =>
    match seg.head?, seg.getLast? with
    | some a, some b =>
      if a ≤ x ∧ x ≤ b then .ok (some 0)
      else (find_bucket rest x).map (Option.map (· + 1))
    | _, _ => .error ()

/-- The per-length mapping loop of `on_generate_midi`: for each word
length run `find_bucket`; a matched index is appended, no match
appends nothing, and an `IndexError` aborts. -/
def map_lengths (segs : List (List Nat)) : List Nat → Except Unit (List Nat)
  | [] => .ok []
  | x :: xs =>
    match find_bucket segs x with
    | .error e => .error e
    | .ok none => map_lengths segs xs
    | .ok (some j) => (map_lengths segs xs).map (fun js => j :: js)

/-- Python `min` over a list (raises on empty, hence `Option`). -/
def pyListMin : List Nat → Option Nat
  | [] => none
  | x :: xs => some (xs.foldl min x)

/-- Python `max` over a list (raises on empty, hence `Option`). -/
def pyListMax : List Nat → Option Nat
  | [] => none
  | x :: xs => some (xs.foldl max x)

/-- The bucketed pitch mapping of `on_generate_midi`
(`en_musictester.py`, melody generation step 1): word lengths,
`min`/`max`, `np.array_split(range(min_len, max_len+1), n_scales)`,
then the first-matching-bucket search per length. -/
def mapped_indices (words : List (List Char)) (scale_intervals : List Nat) :
    Except Unit (List Nat) :=
  let word_lengths := words.map List.length
  match pyListMin word_lengths, pyListMax word_lengths with
  | some mn, some mx =>
    map_lengths (array_split (List.range' mn (mx + 1 - mn)) scale_intervals.length)
      word_lengths
  | _, _ => .error ()

theorem foldl_min_le (xs : List Nat) :
    ∀ x : Nat, xs.foldl min x ≤ x ∧ ∀ y ∈ xs, xs.foldl min x ≤ y := by
  induction xs with
  | nil =>
    intro x
    exact ⟨Nat.le_refl x, fun y hy => absurd hy (List.not_mem_nil y)⟩
  | cons a l ih =>
    intro x
    obtain ⟨h1, h2⟩ := ih (min x a)
    refine ⟨?_, ?_⟩
    · simp only [List.foldl_cons]
      omega
    · intro y hy
      rcases List.mem_cons.mp hy with rfl | hy
      · simp only [List.foldl_cons]
        omega
      · simp only [List.foldl_cons]
        exact h2 y hy

theorem le_foldl_max (xs : List Nat) :
    ∀ x : Nat, x ≤ xs.foldl max x ∧ ∀ y ∈ xs, y ≤ xs.foldl max x := by
  induction xs with
  | nil =>
    intro x
    exact ⟨Nat.le_refl x, fun y hy => absurd hy (List.not_mem_nil y)⟩
  | cons a l ih =>
    intro x
    obtain ⟨h1, h2⟩ := ih (max x a)
    refine ⟨?_, ?_⟩
    · simp only [List.foldl_cons]
      omega
    · intro y hy
      rcases List.mem_cons.mp hy with rfl | hy
      · simp only [List.foldl_cons]
        omega
      · simp only [List.foldl_cons]
        exact h2 y hy

theorem range'_take (j : Nat) :
    ∀ (a n : Nat), (List.range' a n).take j = List.range' a (min j n) := by
  induction j with
  | zero => intro a n; simp
  | succ j ih =>
    intro a n
    cases n with
    | zero => simp
    | succ n =>
      have hm : min (j + 1) (n + 1) = min j n + 1 := by omega
      rw [List.range'_succ, List.take_succ_cons, ih, hm, List.range'_succ]

theorem range'_drop (j : Nat) :
    ∀ (a n : Nat), (List.range' a n).drop j = List.range' (a + j) (n - j) := by
  induction j with
  | zero => intro a n; simp
  | succ j ih =>
    intro a n
    cases n with
    | zero => simp
    | succ n =>
      rw [List.range'_succ, List.drop_succ_cons, ih]
      congr 1 <;> omega

theorem range'_head? (a n : Nat) :
    (List.range' a (n + 1)).head? = some a := by
  rw [List.range'_succ]
  rfl

theorem range'_getLast? (n : Nat) :
    ∀ (a : Nat), (List.range' a (n + 1)).getLast? = some (a + n) := by
  induction n with
  | zero => intro a; simp [List.range'_succ]
  | succ n ih =>
    intro a
    rw [List.range'_succ, List.range'_succ, List.getLast?_cons_cons,
      ← List.range'_succ, ih]
    congr 1
    omega

/-- Searching the `array_split` parts of the contiguous range
`[a, a+len)` (with `len = k*q + r` and `r ≤ k`, the invariant of the
`splitParts` recursion) is total on the range and never reaches an
empty part: the minimum maps to bucket `0` and the maximum to bucket
`min len k - 1` (the last non-empty bucket). -/
theorem find_bucket_splitParts :
    ∀ (k a len q r : Nat), len = k * q + r → r ≤ k → 1 ≤ len →
      (∀ x, a ≤ x → x < a + len →
        ∃ j, find_bucket (splitParts (List.range' a len) k q r) x = .ok (some j) ∧
          j < k) ∧
      find_bucket (splitParts (List.range' a len) k q r) a = .ok (some 0) ∧
      find_bucket (splitParts (List.range' a len) k q r) (a + len - 1) =
        .ok (some (min len k - 1)) := by
  intro k
  induction k with
  | zero =>
    intro a len q r hlen hr h1
    simp only [Nat.zero_mul, Nat.zero_add] at hlen
    omega
  | succ k ih =>
    intro a len q r hlen hr h1
    have hsm : (k + 1) * q = k * q + q := by ring
    by_cases hr0 : 0 < r
    · -- first part has size q + 1
      have hsle : q + 1 ≤ len := by omega
      have hmin : min (q + 1) len = q + 1 := by omega
      have hsplit :
          splitParts (List.range' a len) (k + 1) q r =
            List.range' a (q + 1) ::
              splitParts (List.range' (a + (q + 1)) (len - (q + 1))) k q (r - 1) := by
        simp only [splitParts, if_pos hr0]
        rw [range'_take, hmin, range'_drop]
      have hhead : (List.range' a (q + 1)).head? = some a := range'_head? a q
      have hlast : (List.range' a (q + 1)).getLast? = some (a + q) := range'_getLast? q a
      by_cases hB : 1 ≤ len - (q + 1)
      · -- the tail still covers part of the range
        have hlen2 : len - (q + 1) = k * q + (r - 1) := by omega
        have hr2 : r - 1 ≤ k := by omega
        obtain ⟨IH1, IH2, IH3⟩ := ih (a + (q + 1)) (len - (q + 1)) q (r - 1) hlen2 hr2 hB
        have hk1 : 1 ≤ k := by
          rcases Nat.eq_zero_or_pos k with rfl | hk
          · simp only [Nat.zero_mul, Nat.zero_add] at hlen2
            omega
          · exact hk
        refine ⟨?_, ?_, ?_⟩
        · intro x hx1 hx2
          rw [hsplit]
          by_cases hx : x ≤ a + q
          · refine ⟨0, ?_, by omega⟩
            simp only [find_bucket, hhead, hlast]
            rw [if_pos ⟨hx1, hx⟩]
          · obtain ⟨j, hj, hjk⟩ := IH1 x (by omega) (by omega)
            refine ⟨j + 1, ?_, by omega⟩
            simp only [find_bucket, hhead, hlast]
            rw [if_neg (by omega), hj]
            rfl
        · rw [hsplit]
          simp only [find_bucket, hhead, hlast]
          rw [if_pos ⟨Nat.le_refl a, by omega⟩]
        · rw [hsplit]
          simp only [find_bucket, hhead, hlast]
          rw [if_neg (by omega)]
          have hx3 : a + (q + 1) + (len - (q + 1)) - 1 = a + len - 1 := by omega
          rw [hx3] at IH3
          rw [IH3]
          have harith : min (len - (q + 1)) k - 1 + 1 = min len (k + 1) - 1 := by
            have hmk : 1 ≤ min (len - (q + 1)) k := by omega
            rcases Nat.eq_zero_or_pos q with rfl | hq
            · omega
            · have hm1 : k ≤ k * q := by
                calc k = k * 1 := (Nat.mul_one k).symm
                _ ≤ k * q := Nat.mul_le_mul_left k hq
              omega
          simp only [Except.map, Option.map]
          rw [harith]
      · -- the whole remaining range sits in the first part
        have hlA : len = q + 1 := by omega
        have hkq : k * q + (r - 1) = 0 := by omega
        refine ⟨?_, ?_, ?_⟩
        · intro x hx1 hx2
          rw [hsplit]
          refine ⟨0, ?_, by omega⟩
          simp only [find_bucket, hhead, hlast]
          rw [if_pos ⟨hx1, by omega⟩]
        · rw [hsplit]
          simp only [find_bucket, hhead, hlast]
          rw [if_pos ⟨Nat.le_refl a, by omega⟩]
        · rw [hsplit]
          simp only [find_bucket, hhead, hlast]
          rw [if_pos ⟨by omega, by omega⟩]
          have hz : k * q = 0 := by omega
          rcases Nat.mul_eq_zero.mp hz with rfl | rfl
          · have : min len (0 + 1) - 1 = 0 := by omega
            rw [this]
          · have : min len (k + 1) - 1 = 0 := by omega
            rw [this]
    · -- r = 0: first part has size q
      have hr00 : r = 0 := by omega
      subst hr00
      rcases Nat.eq_zero_or_pos q with rfl | hq
      · exfalso
        simp only [Nat.mul_zero] at hlen
        omega
      have hsle : q ≤ len := by omega
      have hmin : min q len = q := by omega
      have hsplit :
          splitParts (List.range' a len) (k + 1) q 0 =
            List.range' a q ::
              splitParts (List.range' (a + q) (len - q)) k q 0 := by
        simp only [splitParts, if_neg hr0]
        rw [range'_take, hmin, range'_drop]
      obtain ⟨q₀, rfl⟩ : ∃ q₀, q = q₀ + 1 := ⟨q - 1, by omega⟩
      have hhead : (List.range' a (q₀ + 1)).head? = some a := range'_head? a q₀
      have hlast : (List.range' a (q₀ + 1)).getLast? = some (a + q₀) :=
        range'_getLast? q₀ a
      by_cases hB : 1 ≤ len - (q₀ + 1)
      · have hlen2 : len - (q₀ + 1) = k * (q₀ + 1) + 0 := by omega
        obtain ⟨IH1, IH2, IH3⟩ :=
          ih (a + (q₀ + 1)) (len - (q₀ + 1)) (q₀ + 1) 0 hlen2 (Nat.zero_le k) hB
        have hk1 : 1 ≤ k := by
          rcases Nat.eq_zero_or_pos k with rfl | hk
          · simp only [Nat.zero_mul, Nat.zero_add] at hlen2
            omega
          · exact hk
        refine ⟨?_, ?_, ?_⟩
        · intro x hx1 hx2
          rw [hsplit]
          by_cases hx : x ≤ a + q₀
          · refine ⟨0, ?_, by omega⟩
            simp only [find_bucket, hhead, hlast]
            rw [if_pos ⟨hx1, hx⟩]
          · obtain ⟨j, hj, hjk⟩ := IH1 x (by omega) (by omega)
            refine ⟨j + 1, ?_, by omega⟩
            simp only [find_bucket, hhead, hlast]
            rw [if_neg (by omega), hj]
            rfl
        · rw [hsplit]
          simp only [find_bucket, hhead, hlast]
          rw [if_pos ⟨Nat.le_refl a, by omega⟩]
        · rw [hsplit]
          simp only [find_bucket, hhead, hlast]
          rw [if_neg (by omega)]
          have hx3 : a + (q₀ + 1) + (len - (q₀ + 1)) - 1 = a + len - 1 := by omega
          rw [hx3] at IH3
          rw [IH3]
          have hm1 : k ≤ k * (q₀ + 1) := by
            calc k = k * 1 := (Nat.mul_one k).symm
            _ ≤ k * (q₀ + 1) := Nat.mul_le_mul_left k hq
          have harith : min (len - (q₀ + 1)) k - 1 + 1 = min len (k + 1) - 1 := by
            omega
          simp only [Except.map, Option.map]
          rw [harith]
      · have hlA : len = q₀ + 1 := by omega
        have hz : k * (q₀ + 1) = 0 := by omega
        have hk0 : k = 0 := by
          rcases Nat.mul_eq_zero.mp hz with h | h
          · exact h
          · omega
        subst hk0
        refine ⟨?_, ?_, ?_⟩
        · intro x hx1 hx2
          rw [hsplit]
          refine ⟨0, ?_, by omega⟩
          simp only [find_bucket, hhead, hlast]
          rw [if_pos ⟨hx1, by omega⟩]
        · rw [hsplit]
          simp only [find_bucket, hhead, hlast]
          rw [if_pos ⟨Nat.le_refl a, by omega⟩]
        · rw [hsplit]
          simp only [find_bucket, hhead, hlast]
          rw [if_pos ⟨by omega, by omega⟩]
          have : min len (0 + 1) - 1 = 0 := by omega
          rw [this]

theorem map_lengths_ok (segs : List (List Nat)) :
    ∀ xs : List Nat, (∀ x ∈ xs, ∃ j, find_bucket segs x = .ok (some j)) →
      ∃ idxs, map_lengths segs xs = .ok idxs ∧ idxs.length = xs.length ∧
        ∀ p, p < xs.length →
          find_bucket segs (xs.getD p 0) = .ok (some (idxs.getD p 0)) := by
  intro xs
  induction xs with
  | nil =>
    intro _
    exact ⟨[], rfl, rfl, fun p hp => absurd hp (by simp)⟩
  | cons x xs ih =>
    intro h
    obtain ⟨j, hj⟩ := h x (by simp)
    obtain ⟨idxs, hm, hl, hp⟩ := ih (fun y hy => h y (List.mem_cons_of_mem _ hy))
    refine ⟨j :: idxs, ?_, by simp [hl], ?_⟩
    · simp only [map_lengths, hj, hm]
      rfl
    · intro p hp2
      cases p with
      | zero => simpa using hj
      | succ p =>
        simp only [List.getD_cons_succ]
        exact hp p (by simpa using hp2)

/-- `SCALE_OPTIONS` from `en_musictester.py`: named scales (interval
sets). -/
def SCALE_OPTIONS : List (List Char × List Nat) :=
  [("Rock (Minor Pentatonic)".data,    [0, 3, 5, 7, 10, 12]),
   ("Blues (Blues Scale)".data,        [0, 3, 5, 6, 7, 10, 12]),
   ("Metal (Phrygian Dominant)".data,  [0, 1, 4, 5, 7, 8, 10, 12]),
   ("Ballad (Major Scale)".data,       [0, 2, 4, 5, 7, 9, 11, 12]),
   ("Classical (Harmonic Minor)".data, [0, 2, 3, 5, 7, 8, 11, 12])]

/-- C9: for every non-empty word list and scale of positive size, the
bucketed pitch mapping of `on_generate_midi` is total: every word
length lies in `[minLen, maxLen]`, its containing segment of the
N-way split is non-empty and matched (with `break`) before any empty
trailing segment, so the search raises no `IndexError`, exactly one
degree index is appended per word, and every index is `< N` — even
when the number of distinct lengths is smaller than N. -/
theorem mapped_indices_total (words : List (List Char)) (scale : List Nat)
    (hw : words ≠ []) (hs : 0 < scale.length) :
    ∃ idxs, mapped_indices words scale = .ok idxs ∧
      idxs.length = words.length ∧ ∀ j ∈ idxs, j < scale.length := by
  cases words with
  | nil => exact absurd rfl hw
  | cons w ws =>
    set xs := (w :: ws).map List.length with hxs
    obtain ⟨x₀, xt, hxx⟩ : ∃ x₀ xt, xs = x₀ :: xt := ⟨w.length, ws.map List.length, rfl⟩
    set mn := xt.foldl min x₀ with hmn
    set mx := xt.foldl max x₀ with hmx
    have hminx : ∀ y ∈ xs, mn ≤ y := by
      intro y hy
      rw [hxx] at hy
      rcases List.mem_cons.mp hy with rfl | hy
      · exact (foldl_min_le xt y).1
      · exact (foldl_min_le xt x₀).2 y hy
    have hmaxx : ∀ y ∈ xs, y ≤ mx := by
      intro y hy
      rw [hxx] at hy
      rcases List.mem_cons.mp hy with rfl | hy
      · exact (le_foldl_max xt y).1
      · exact (le_foldl_max xt x₀).2 y hy
    have hmnmx : mn ≤ mx := by
      have h1 := hminx x₀ (by rw [hxx]; simp)
      have h2 := hmaxx x₀ (by rw [hxx]; simp)
      omega
    set L := mx + 1 - mn with hL
    have hL1 : 1 ≤ L := by omega
    set N := scale.length with hN
    have hlen : L = N * (L / N) + L % N := (Nat.div_add_mod L N).symm
    have hrle : L % N ≤ N := Nat.le_of_lt (Nat.mod_lt _ hs)
    obtain ⟨T1, _, _⟩ := find_bucket_splitParts N mn L (L / N) (L % N) hlen hrle hL1
    have hsegs :
        array_split (List.range' mn L) N =
          splitParts (List.range' mn L) N (L / N) (L % N) := by
      unfold array_split
      rw [List.length_range']
    have hfb : ∀ x ∈ xs,
        ∃ j, find_bucket (array_split (List.range' mn L) N) x = .ok (some j) ∧
          j < N := by
      intro x hx
      rw [hsegs]
      exact T1 x (hminx x hx) (by have := hmaxx x hx; omega)
    obtain ⟨idxs, hml, hlen2, hpt⟩ :=
      map_lengths_ok (array_split (List.range' mn L) N) xs
        (by
          intro x hx
          obtain ⟨j, hj, _⟩ := hfb x hx
          exact ⟨j, hj⟩)
    have hres : mapped_indices (w :: ws) scale = .ok idxs := by
      unfold mapped_indices
      rw [← hxs, hxx]
      simp only [pyListMin, pyListMax, ← hmn, ← hmx, ← hL, ← hN]
      rw [← hxx]
      exact hml
    refine ⟨idxs, hres, by rw [hlen2, hxs]; simp, ?_⟩
    intro j hj
    obtain ⟨p, hp, hpj⟩ := List.getElem_of_mem hj
    have hplen : p < xs.length := by omega
    have h1 := hpt p hplen
    obtain ⟨j', hj', hj'N⟩ := hfb (xs.getD p 0) (by
      have hx1 : xs.getD p 0 = xs[p] := List.getD_eq_getElem xs 0 hplen
      rw [hx1]
      exact List.getElem_mem hplen)
    rw [hj'] at h1
    have : idxs.getD p 0 = j' := by
      have := Except.ok.inj h1
      exact (Option.some.inj this).symm
    have hgd : idxs.getD p 0 = j := by
      rw [List.getD_eq_getElem idxs 0 (by omega), hpj]
    omega

/-- C3 counterexample: for words `"a"`, `"bb"` (length range `{1,2}`)
and the six-degree Rock scale of `SCALE_OPTIONS`, `np.array_split`
leaves the four trailing buckets empty, so the maximum-length token
maps to degree 1, not to degree `N - 1 = 5` as the claim states. -/
theorem mapped_indices_max_ne_top :
    mapped_indices [['a'], ['b', 'b']] [0, 3, 5, 7, 10, 12] = .ok [0, 1] ∧
    ("Rock (Minor Pentatonic)".data, [0, 3, 5, 7, 10, 12]) ∈ SCALE_OPTIONS ∧
    (1 : Nat) ≠ [0, 3, 5, 7, 10, 12].length - 1 := by
  refine ⟨rfl, by decide, by decide⟩

/-- C3 (amended): for every non-empty token list and scale of size
`N > 0`, every token maps to a degree index in `[0, N-1]`; tokens of
minimum length map to degree 0, and tokens of maximum length map to
degree `min (maxLen - minLen + 1) N - 1` — which equals `N - 1`
whenever the number of distinct possible lengths is at least `N`
(earlier buckets receive the extra elements when the range does not
divide evenly by `N`; trailing buckets are empty when the range is
smaller than `N`). -/
theorem mapped_indices_minmax (words : List (List Char)) (scale : List Nat)
    (mn mx : Nat)
    (hmn : pyListMin (words.map List.length) = some mn)
    (hmx : pyListMax (words.map List.length) = some mx)
    (hs : 0 < scale.length) :
    ∃ idxs, mapped_indices words scale = .ok idxs ∧
      idxs.length = words.length ∧
      (∀ j ∈ idxs, j < scale.length) ∧
      (∀ p, p < words.length →
        ((words.map List.length).getD p 0 = mn → idxs.getD p 0 = 0) ∧
        ((words.map List.length).getD p 0 = mx →
          idxs.getD p 0 = min (mx + 1 - mn) scale.length - 1)) ∧
      (scale.length ≤ mx + 1 - mn →
        ∀ p, p < words.length →
          (words.map List.length).getD p 0 = mx →
          idxs.getD p 0 = scale.length - 1) := by
  cases words with
  | nil => simp [pyListMin] at hmn
  | cons w ws =>
    set xs := (w :: ws).map List.length with hxs
    obtain ⟨x₀, xt, hxx⟩ : ∃ x₀ xt, xs = x₀ :: xt := ⟨w.length, ws.map List.length, rfl⟩
    have hmn2 : mn = xt.foldl min x₀ := by
      rw [hxx] at hmn
      simpa [pyListMin] using hmn.symm
    have hmx2 : mx = xt.foldl max x₀ := by
      rw [hxx] at hmx
      simpa [pyListMax] using hmx.symm
    have hminx : ∀ y ∈ xs, mn ≤ y := by
      intro y hy
      rw [hxx] at hy
      rw [hmn2]
      rcases List.mem_cons.mp hy with rfl | hy
      · exact (foldl_min_le xt y).1
      · exact (foldl_min_le xt x₀).2 y hy
    have hmaxx : ∀ y ∈ xs, y ≤ mx := by
      intro y hy
      rw [hxx] at hy
      rw [hmx2]
      rcases List.mem_cons.mp hy with rfl | hy
      · exact (le_foldl_max xt y).1
      · exact (le_foldl_max xt x₀).2 y hy
    have hmnmx : mn ≤ mx := by
      have h1 := hminx x₀ (by rw [hxx]; simp)
      have h2 := hmaxx x₀ (by rw [hxx]; simp)
      omega
    set L := mx + 1 - mn with hL
    have hL1 : 1 ≤ L := by omega
    set N := scale.length with hN
    have hlen : L = N * (L / N) + L % N := (Nat.div_add_mod L N).symm
    have hrle : L % N ≤ N := Nat.le_of_lt (Nat.mod_lt _ hs)
    obtain ⟨T1, T2, T3⟩ := find_bucket_splitParts N mn L (L / N) (L % N) hlen hrle hL1
    have hsegs :
        array_split (List.range' mn L) N =
          splitParts (List.range' mn L) N (L / N) (L % N) := by
      unfold array_split
      rw [List.length_range']
    have hfb : ∀ x ∈ xs,
        ∃ j, find_bucket (array_split (List.range' mn L) N) x = .ok (some j) ∧
          j < N := by
      intro x hx
      rw [hsegs]
      exact T1 x (hminx x hx) (by have := hmaxx x hx; omega)
    obtain ⟨idxs, hml, hlen2, hpt⟩ :=
      map_lengths_ok (array_split (List.range' mn L) N) xs
        (by
          intro x hx
          obtain ⟨j, hj, _⟩ := hfb x hx
          exact ⟨j, hj⟩)
    have hres : mapped_indices (w :: ws) scale = .ok idxs := by
      unfold mapped_indices
      rw [← hxs, hxx]
      simp only [pyListMin, pyListMax]
      rw [← hmn2, ← hmx2, ← hL, ← hN, ← hxx]
      exact hml
    have hwl : xs.length = (w :: ws).length := by rw [hxs]; simp
    have hbound : ∀ j ∈ idxs, j < N := by
      intro j hj
      obtain ⟨p, hp, hpj⟩ := List.getElem_of_mem hj
      have hplen : p < xs.length := by omega
      have h1 := hpt p hplen
      obtain ⟨j', hj', hj'N⟩ := hfb (xs.getD p 0) (by
        have hx1 : xs.getD p 0 = xs[p] := List.getD_eq_getElem xs 0 hplen
        rw [hx1]
        exact List.getElem_mem hplen)
      rw [hj'] at h1
      have he : idxs.getD p 0 = j' := (Option.some.inj (Except.ok.inj h1)).symm
      have hgd : idxs.getD p 0 = j := by
        rw [List.getD_eq_getElem idxs 0 (by omega), hpj]
      omega
    have hminmax : ∀ p, p < (w :: ws).length →
        (xs.getD p 0 = mn → idxs.getD p 0 = 0) ∧
        (xs.getD p 0 = mx → idxs.getD p 0 = min L N - 1) := by
      intro p hp
      have hplen : p < xs.length := by omega
      have h1 := hpt p hplen
      constructor
      · intro hpmn
        rw [hpmn, hsegs, T2] at h1
        exact (Option.some.inj (Except.ok.inj h1)).symm
      · intro hpmx
        have hpoint : mn + L - 1 = mx := by omega
        rw [hpmx, hsegs] at h1
        rw [hpoint] at T3
        rw [T3] at h1
        exact (Option.some.inj (Except.ok.inj h1)).symm
    refine ⟨idxs, hres, by omega, hbound, hminmax, ?_⟩
    intro hLN p hp hpmx
    have h2 := (hminmax p hp).2 hpmx
    have : min L N = N := by omega
    rw [this] at h2
    exact h2

theorem mapped_indices_minmax_witness :
    pyListMin ([['a'], ['b', 'b'], ['c', 'c', 'c']].map List.length) = some 1 ∧
    pyListMax ([['a'], ['b', 'b'], ['c', 'c', 'c']].map List.length) = some 3 ∧
    0 < [0, 3, 5, 7, 10, 12].length ∧
    (∃ idxs, mapped_indices [['a'], ['b', 'b'], ['c', 'c', 'c']] [0, 3, 5, 7, 10, 12] =
        .ok idxs ∧
      idxs.length = [['a'], ['b', 'b'], ['c', 'c', 'c']].length ∧
      (∀ j ∈ idxs, j < [0, 3, 5, 7, 10, 12].length) ∧
      (∀ p, p < [['a'], ['b', 'b'], ['c', 'c', 'c']].length →
        (([['a'], ['b', 'b'], ['c', 'c', 'c']].map List.length).getD p 0 = 1 →
          idxs.getD p 0 = 0) ∧
        (([['a'], ['b', 'b'], ['c', 'c', 'c']].map List.length).getD p 0 = 3 →
          idxs.getD p 0 = min (3 + 1 - 1) [0, 3, 5, 7, 10, 12].length - 1)) ∧
      ([0, 3, 5, 7, 10, 12].length ≤ 3 + 1 - 1 →
        ∀ p, p < [['a'], ['b', 'b'], ['c', 'c', 'c']].length →
          ([['a'], ['b', 'b'], ['c', 'c', 'c']].map List.length).getD p 0 = 3 →
          idxs.getD p 0 = [0, 3, 5, 7, 10, 12].length - 1)) :=
  ⟨by decide, by decide, by decide,
    mapped_indices_minmax [['a'], ['b', 'b'], ['c', 'c', 'c']] [0, 3, 5, 7, 10, 12]
      1 3 (by decide) (by decide) (by decide)⟩

theorem mapped_indices_total_witness :
    ([['a'], ['b', 'b']] : List (List Char)) ≠ [] ∧
    0 < [0, 3, 5, 7, 10, 12].length ∧
    (∃ idxs, mapped_indices [['a'], ['b', 'b']] [0, 3, 5, 7, 10, 12] = .ok idxs ∧
      idxs.length = [['a'], ['b', 'b']].length ∧
      ∀ j ∈ idxs, j < [0, 3, 5, 7, 10, 12].length) :=
  ⟨by decide, by decide,
    mapped_indices_total [['a'], ['b', 'b']] [0, 3, 5, 7, 10, 12] (by decide) (by decide)⟩

/-- `MAJOR_SCALE` from `random_music.py`. -/
def MAJOR_SCALE : List Nat := [0, 2, 4, 5, 7, 9, 11, 12]

/-- One record of section data as stored by `generate_section_data`:
`(note_num, stored_velocity, dur, gap)`. -/
structure SectionEvent where
  note : Nat
  velocity : Nat
  dur : Nat
  gap : Nat
  deriving DecidableEq, Repr

/-- `generate_section_data` from `random_music.py`: one event per
non-empty word (empty cleaned words are skipped), with the duration
drawn from the mode's duration set, the velocity from the mode's
range, and (chorus only) a gap in `[0, 120]`; returns the event list,
the total `Σ (dur + gap)`, and the advanced draw index (duration,
velocity and, for chorus, gap each consume one draw, in source
order). -/
def generate_section_data (g : Nat → Nat) :
    List (List Char) → Bool → Nat → List SectionEvent × Nat × Nat
  | [], _, i => ([], 0, i)
  | w :: ws, is_chorus, i =>
    if w.length = 0 then generate_section_data g ws is_chorus i
    else
      let note_durations : List Nat :=
        if is_chorus then [480, 960, 1920] else [240, 480, 960]
      let base_note : Nat := if is_chorus then 64 else 60
      let idx_scale := w.length % MAJOR_SCALE.length
      let pitch_offset := MAJOR_SCALE.getD idx_scale 0
      let note_num := base_note + pitch_offset
      let dur := randChoice g i note_durations 0
      let velocity :=
        if is_chorus then randint g (i + 1) 100 127 else randint g (i + 1) 80 120
      let gap := if is_chorus then randint g (i + 2) 0 120 else 0
      let i2 := if is_chorus then i + 3 else i + 2
      let rest := generate_section_data g ws is_chorus i2
      (⟨note_num, velocity, dur, gap⟩ :: rest.1, dur + gap + rest.2.1, rest.2.2)

theorem randChoice_mem {α : Type} (g : Nat → Nat) (i : Nat) (l : List α) (d : α)
    (h : l ≠ []) : randChoice g i l d ∈ l := by
  unfold randChoice
  have hlen : 0 < l.length := List.length_pos.mpr h
  have hm : g i % l.length < l.length := Nat.mod_lt _ hlen
  rw [List.getD_eq_getElem l d hm]
  exact List.getElem_mem hm

/-- C8: every event emitted by `generate_section_data` has its
duration drawn from the allowed duration set of the mode (hence
positive), its velocity in the declared range (100–127 for chorus,
80–120 for verse), and its gap in `[0, 120]` for chorus and exactly 0
otherwise; the returned total equals the sum of `dur + gap` over the
emitted events. -/
theorem generate_section_data_bounds (g : Nat → Nat) (words : List (List Char))
    (is_chorus : Bool) (i : Nat) :
    (∀ e ∈ (generate_section_data g words is_chorus i).1,
      e.dur ∈ (if is_chorus then [480, 960, 1920] else [240, 480, 960]) ∧
      0 < e.dur ∧
      (if is_chorus then 100 ≤ e.velocity ∧ e.velocity ≤ 127
        else 80 ≤ e.velocity ∧ e.velocity ≤ 120) ∧
      (if is_chorus then e.gap ≤ 120 else e.gap = 0)) ∧
    (generate_section_data g words is_chorus i).2.1 =
      ((generate_section_data g words is_chorus i).1.map (fun e => e.dur + e.gap)).sum := by
  induction words generalizing i with
  | nil => exact ⟨fun e he => absurd he (List.not_mem_nil e), rfl⟩
  | cons w ws ih =>
    by_cases hw : w.length = 0
    · simpa [generate_section_data, hw] using ih i
    · obtain ⟨ih1, ih2⟩ := ih (if is_chorus then i + 3 else i + 2)
      constructor
      · intro e he
        simp only [generate_section_data, if_neg hw] at he
        rcases List.mem_cons.mp he with rfl | he
        · refine ⟨?_, ?_, ?_, ?_⟩
          · cases is_chorus with
            | false => simpa using randChoice_mem g i [240, 480, 960] 0 (by simp)
            | true => simpa using randChoice_mem g i [480, 960, 1920] 0 (by simp)
          · cases is_chorus with
            | false =>
              have := randChoice_mem g i [240, 480, 960] 0 (by simp)
              simp only [Bool.false_eq_true, if_false]
              simp at this ⊢
              omega
            | true =>
              have := randChoice_mem g i [480, 960, 1920] 0 (by simp)
              simp only [if_true]
              simp at this ⊢
              omega
          · cases is_chorus with
            | false => simpa using randint_le g (i + 1) 80 120 (by omega)
            | true => simpa using randint_le g (i + 1) 100 127 (by omega)
          · cases is_chorus with
            | false => simp
            | true => simpa using (randint_le g (i + 2) 0 120 (by omega)).2
        · exact ih1 e he
      · simp only [generate_section_data, if_neg hw, List.map_cons, List.sum_cons]
        rw [ih2]

theorem generate_section_data_bounds_witness :
    (⟨64, 80, 240, 0⟩ : SectionEvent).dur ∈
      (if (false : Bool) then [480, 960, 1920] else [240, 480, 960]) ∧
    0 < (⟨64, 80, 240, 0⟩ : SectionEvent).dur ∧
    (if (false : Bool) then
        100 ≤ (⟨64, 80, 240, 0⟩ : SectionEvent).velocity ∧
          (⟨64, 80, 240, 0⟩ : SectionEvent).velocity ≤ 127
      else 80 ≤ (⟨64, 80, 240, 0⟩ : SectionEvent).velocity ∧
          (⟨64, 80, 240, 0⟩ : SectionEvent).velocity ≤ 120) ∧
    (if (false : Bool) then (⟨64, 80, 240, 0⟩ : SectionEvent).gap ≤ 120
      else (⟨64, 80, 240, 0⟩ : SectionEvent).gap = 0) :=
  (generate_section_data_bounds (fun _ => 0) [['h', 'i']] false 0).1
    ⟨64, 80, 240, 0⟩ (by decide)

/-- `apply_section_data_to_channel` from `random_music.py`: write each
event's note-on (delta 0), note-off (delta `dur`), and, when
`gap > 0`, a zero-velocity dummy note-on (delta `gap`); return the
messages and the total ticks used. -/
def apply_section_data_to_channel : List SectionEvent → Nat → List Msg × Nat
  | [], _ => ([], 0)
  | e :: rest, channel =>
    let tail := apply_section_data_to_channel rest channel
    let gapMsgs : List Msg :=
      if 0 < e.gap then [Msg.noteOn e.note 0 (e.gap : Int) channel] else []
    (Msg.noteOn e.note e.velocity 0 channel ::
       Msg.noteOff e.note 0 (e.dur : Int) channel :: (gapMsgs ++ tail.1),
     e.dur + (if 0 < e.gap then e.gap else 0) + tail.2)

/-- `mido.bpm2tempo`: microseconds per beat.  The rounding mode is
irrelevant to every claim; modelled as integer division. -/
def bpm2tempo (bpm : Nat) : Nat := 60000000 / bpm

/-- `re.sub(r"[,\.\?!;:]", "", w)`: strip the six punctuation
characters. -/
def cleanWord (w : List Char) : List Char :=
  w.filter (fun c => decide (c ∉ [',', '.', '?', '!', ';', ':']))

/-- Tokenise one line: `re.split(r"\s+", ln)` followed by the
`if w.strip()` filter (together: the maximal non-whitespace runs,
see `pySplitWs`), then punctuation cleaning. -/
def line_words (ln : List Char) : List (List Char) := (pySplitWs ln).map cleanWord

/-- The instrument pool for a music type:
`TYPE_INSTRUMENTS.get(music_type, TYPE_INSTRUMENTS["default"])`. -/
def instrument_pool (music_type : List Char) : List Nat :=
  match lookupTable TYPE_INSTRUMENTS music_type with
  | some p => p
  | none => [0, 24, 32, 40, 56, 57, 72, 73, 74]

/-- `bgm_mode` from `random_music.py`: tokenise all lines, repeat the
words twice (`loops = 2`), generate one shared section data, then
write one track per channel (0 and 1), each with tempo, a per-channel
random program change, a volume control, and the identical section
data; returns the track list, the returned maximum track length, and
the advanced draw index. -/
def bgm_mode (g : Nat → Nat) (text : List Char) (bpm : Nat) (music_type : List Char)
    (i : Nat) : List (List Msg) × Nat × Nat :=
  let all_words := ((pySplitlines text).map line_words).flatten
  let repeated_words := all_words ++ all_words
  let sd := generate_section_data g repeated_words false i
  let i1 := sd.2.2
  let pool := instrument_pool music_type
  let app0 := apply_section_data_to_channel sd.1 0
  let app1 := apply_section_data_to_channel sd.1 1
  let track0 := Msg.setTempo (bpm2tempo bpm) 0 ::
    Msg.programChange (randChoice g i1 pool 0) 0 0 ::
    Msg.controlChange 0 7 127 0 :: app0.1
  let track1 := Msg.setTempo (bpm2tempo bpm) 0 ::
    Msg.programChange (randChoice g (i1 + 1) pool 0) 1 0 ::
    Msg.controlChange 1 7 127 0 :: app1.1
  ([track0, track1], max app0.2 app1.2, i1 + 2)

/-- The verse/chorus line partition of `song_mode`: a line whose
`lstrip()` starts with `'>'` contributes `ln_stripped[1:].strip()` to
the chorus lines, any other line contributes `ln.strip()` to the
normal lines. -/
def partitionLines : List (List Char) → List (List Char) × List (List Char)
  | [] => ([], [])
  | ln :: rest =>
    let tail := partitionLines rest
    let ls := ln.dropWhile isWs
    if ls.head? = some '>' then (tail.1, pyStrip (ls.drop 1) :: tail.2)
    else (pyStrip ln :: tail.1, tail.2)

/-- The verse (`a_words`) token list of `song_mode`. -/
def song_verse_words (text : List Char) : List (List Char) :=
  (((partitionLines (pySplitlines text)).1).map line_words).flatten

/-- The chorus (`b_words`) token list of `song_mode`. -/
def song_chorus_words (text : List Char) : List (List Char) :=
  (((partitionLines (pySplitlines text)).2).map line_words).flatten

/-- `song_mode` from `random_music.py`: partition lines into verse and
chorus, fall back to `bgm_mode` when there are no chorus words, else
generate verse section data `A` and chorus section data `B` once, and
write per channel (0 and 1) a track with tempo, per-channel random
program change, volume, then `A`, `B`, `A` — replaying the same `A`
data; returns tracks, the maximum `2*A_len + B_len`, and the advanced
draw index. -/
def song_mode (g : Nat → Nat) (text : List Char) (bpm : Nat) (music_type : List Char)
    (i : Nat) : List (List Msg) × Nat × Nat :=
  let a_words := song_verse_words text
  let b_words := song_chorus_words text
  if b_words = [] then bgm_mode g text bpm music_type i
  else
    let A := generate_section_data g a_words false i
    let B := generate_section_data g b_words true A.2.2
    let i1 := B.2.2
    let pool := instrument_pool music_type
    let appA0 := apply_section_data_to_channel A.1 0
    let appB0 := apply_section_data_to_channel B.1 0
    let appA1 := apply_section_data_to_channel A.1 1
    let appB1 := apply_section_data_to_channel B.1 1
    let track0 := Msg.setTempo (bpm2tempo bpm) 0 ::
      Msg.programChange (randChoice g i1 pool 0) 0 0 ::
      Msg.controlChange 0 7 127 0 :: (appA0.1 ++ appB0.1 ++ appA0.1)
    let track1 := Msg.setTempo (bpm2tempo bpm) 0 ::
      Msg.programChange (randChoice g (i1 + 1) pool 0) 1 0 ::
      Msg.controlChange 1 7 127 0 :: (appA1.1 ++ appB1.1 ++ appA1.1)
    let len0 := appA0.2 + appB0.2 + appA0.2
    let len1 := appA1.2 + appB1.2 + appA1.2
    ([track0, track1], max len0 len1, i1 + 2)

/-- Erase the channel id and the program value — the only per-channel
metadata — from a message, for comparing parallel channel tracks. -/
def Msg.eraseChannelProgram : Msg → Msg
  | .noteOn n v t _ => .noteOn n v t 0
  | .noteOff n v t _ => .noteOff n v t 0
  | .programChange _ _ t => .programChange 0 0 t
  | .controlChange _ c v t => .controlChange 0 c v t
  | .setTempo tp t => .setTempo tp t

theorem apply_erase_channel (sd : List SectionEvent) (c₁ c₂ : Nat) :
    ((apply_section_data_to_channel sd c₁).1).map Msg.eraseChannelProgram =
      ((apply_section_data_to_channel sd c₂).1).map Msg.eraseChannelProgram := by
  induction sd with
  | nil => rfl
  | cons e rest ih =>
    by_cases hg : 0 < e.gap <;>
      simp [apply_section_data_to_channel, hg, Msg.eraseChannelProgram, ih]

theorem apply_total_channel (sd : List SectionEvent) (c₁ c₂ : Nat) :
    (apply_section_data_to_channel sd c₁).2 =
      (apply_section_data_to_channel sd c₂).2 := by
  induction sd with
  | nil => rfl
  | cons e rest ih =>
    simp only [apply_section_data_to_channel]
    rw [ih]

theorem apply_sumTimes (sd : List SectionEvent) (c : Nat) :
    sumTimes (apply_section_data_to_channel sd c).1 =
      ((apply_section_data_to_channel sd c).2 : Int) := by
  induction sd with
  | nil => rfl
  | cons e rest ih =>
    by_cases hg : 0 < e.gap
    · simp only [apply_section_data_to_channel, if_pos hg, sumTimes_cons,
        List.singleton_append, Msg.time, ih]
      push_cast
      ring
    · simp only [apply_section_data_to_channel, if_neg hg, List.nil_append,
        sumTimes_cons, Msg.time, ih]
      push_cast
      ring

/-- C5: in BGM (flat) mode both melody channels receive the identical
note event sequence from the single shared section data: the two
tracks agree message-for-message once the channel id and the
per-channel program draw are erased (same pitch, velocity, duration
and gap per event), their summed delta times are tick-exact equal,
and the returned target duration equals that common total. -/
theorem bgm_mode_unison (g : Nat → Nat) (text : List Char) (bpm : Nat)
    (mt : List Char) (i : Nat) :
    ∃ t0 t1 total i2,
      bgm_mode g text bpm mt i = ([t0, t1], total, i2) ∧
      t0.map Msg.eraseChannelProgram = t1.map Msg.eraseChannelProgram ∧
      sumTimes t0 = sumTimes t1 ∧
      sumTimes t0 = (total : Int) := by
  refine ⟨_, _, _, _, rfl, ?_, ?_, ?_⟩
  · simp only [List.map_cons, Msg.eraseChannelProgram]
    rw [apply_erase_channel _ 0 1]
  · simp only [sumTimes_cons, Msg.time, apply_sumTimes]
    rw [apply_total_channel _ 0 1]
  · simp only [sumTimes_cons, Msg.time, apply_sumTimes]
    rw [apply_total_channel _ 0 1, Nat.max_self]
    ring

/-- The rendered verse section of a SONG-mode channel: the one verse
section data (`A`), generated at draw index `i`, written to `ch`. -/
def song_verse_msgs (g : Nat → Nat) (text : List Char) (i ch : Nat) : List Msg :=
  (apply_section_data_to_channel
    (generate_section_data g (song_verse_words text) false i).1 ch).1

/-- The rendered chorus section of a SONG-mode channel: the chorus
section data (`B`), generated right after the verse draws. -/
def song_chorus_msgs (g : Nat → Nat) (text : List Char) (i ch : Nat) : List Msg :=
  (apply_section_data_to_channel
    (generate_section_data g (song_chorus_words text) true
      (generate_section_data g (song_verse_words text) false i).2.2).1 ch).1

theorem repeat_slice (p v c : List Msg) (hp : p.length = 3) :
    ((p ++ v ++ c ++ v).drop 3).take v.length =
      ((p ++ v ++ c ++ v).drop (3 + v.length + c.length)).take v.length := by
  have hre : p ++ v ++ c ++ v = p ++ (v ++ (c ++ v)) := by
    simp [List.append_assoc]
  rw [hre]
  have h1 : (p ++ (v ++ (c ++ v))).drop 3 = v ++ (c ++ v) := by
    rw [← hp, List.drop_left]
  have hassoc : p ++ (v ++ (c ++ v)) = (p ++ v ++ c) ++ v := by
    simp [List.append_assoc]
  have hplen : (p ++ v ++ c).length = 3 + v.length + c.length := by
    simp only [List.length_append, hp]
  have h2 : (p ++ (v ++ (c ++ v))).drop (3 + v.length + c.length) = v := by
    rw [hassoc, ← hplen, List.drop_left]
  rw [h1, h2, List.take_left, List.take_length]

/-- C4: in SONG (verse/chorus) mode with at least one chorus word,
each channel's stream is a three-message preamble followed by
verse ++ chorus ++ verse where both verse occurrences are the *same*
rendering of the one verse section data (generated once at draw index
`i`, not re-randomized): in particular the slice of the emitted track
at the third section equals the slice at the first section, event for
event (pitches, velocities, durations and gaps included). -/
theorem song_mode_verse_repeat (g : Nat → Nat) (text : List Char) (bpm : Nat)
    (mt : List Char) (i : Nat) (hb : song_chorus_words text ≠ []) :
    ∃ p0 p1,
      p0.length = 3 ∧ p1.length = 3 ∧
      (song_mode g text bpm mt i).1 =
        [p0 ++ song_verse_msgs g text i 0 ++
           song_chorus_msgs g text i 0 ++ song_verse_msgs g text i 0,
         p1 ++ song_verse_msgs g text i 1 ++
           song_chorus_msgs g text i 1 ++ song_verse_msgs g text i 1] ∧
      ((p0 ++ song_verse_msgs g text i 0 ++
          song_chorus_msgs g text i 0 ++ song_verse_msgs g text i 0).drop 3).take
          (song_verse_msgs g text i 0).length =
        ((p0 ++ song_verse_msgs g text i 0 ++
          song_chorus_msgs g text i 0 ++ song_verse_msgs g text i 0).drop
            (3 + (song_verse_msgs g text i 0).length +
              (song_chorus_msgs g text i 0).length)).take
          (song_verse_msgs g text i 0).length ∧
      ((p1 ++ song_verse_msgs g text i 1 ++
          song_chorus_msgs g text i 1 ++ song_verse_msgs g text i 1).drop 3).take
          (song_verse_msgs g text i 1).length =
        ((p1 ++ song_verse_msgs g text i 1 ++
          song_chorus_msgs g text i 1 ++ song_verse_msgs g text i 1).drop
            (3 + (song_verse_msgs g text i 1).length +
              (song_chorus_msgs g text i 1).length)).take
          (song_verse_msgs g text i 1).length := by
  refine ⟨[Msg.setTempo (bpm2tempo bpm) 0,
      Msg.programChange (randChoice g
        (generate_section_data g (song_chorus_words text) true
          (generate_section_data g (song_verse_words text) false i).2.2).2.2
        (instrument_pool mt) 0) 0 0,
      Msg.controlChange 0 7 127 0],
    [Msg.setTempo (bpm2tempo bpm) 0,
      Msg.programChange (randChoice g
        ((generate_section_data g (song_chorus_words text) true
          (generate_section_data g (song_verse_words text) false i).2.2).2.2 + 1)
        (instrument_pool mt) 0) 1 0,
      Msg.controlChange 1 7 127 0],
    rfl, rfl, ?_, ?_, ?_⟩
  · unfold song_mode
    rw [if_neg hb]
    simp only [song_verse_msgs, song_chorus_msgs]
    rfl
  · exact repeat_slice _ _ _ rfl
  · exact repeat_slice _ _ _ rfl

/-- Concrete SONG-mode input with one verse line and one chorus line. -/
def songDemoText : List Char := "hey you\n>la la".data

theorem song_mode_verse_repeat_witness :
    song_chorus_words songDemoText ≠ [] ∧
    (∃ p0 p1,
      p0.length = 3 ∧ p1.length = 3 ∧
      (song_mode (fun _ => 0) songDemoText 120 ("default".data) 0).1 =
        [p0 ++ song_verse_msgs (fun _ => 0) songDemoText 0 0 ++
           song_chorus_msgs (fun _ => 0) songDemoText 0 0 ++ song_verse_msgs (fun _ => 0) songDemoText 0 0,
         p1 ++ song_verse_msgs (fun _ => 0) songDemoText 0 1 ++
           song_chorus_msgs (fun _ => 0) songDemoText 0 1 ++ song_verse_msgs (fun _ => 0) songDemoText 0 1] ∧
      ((p0 ++ song_verse_msgs (fun _ => 0) songDemoText 0 0 ++
          song_chorus_msgs (fun _ => 0) songDemoText 0 0 ++ song_verse_msgs (fun _ => 0) songDemoText 0 0).drop 3).take
          (song_verse_msgs (fun _ => 0) songDemoText 0 0).length =
        ((p0 ++ song_verse_msgs (fun _ => 0) songDemoText 0 0 ++
          song_chorus_msgs (fun _ => 0) songDemoText 0 0 ++ song_verse_msgs (fun _ => 0) songDemoText 0 0).drop
            (3 + (song_verse_msgs (fun _ => 0) songDemoText 0 0).length +
              (song_chorus_msgs (fun _ => 0) songDemoText 0 0).length)).take
          (song_verse_msgs (fun _ => 0) songDemoText 0 0).length ∧
      ((p1 ++ song_verse_msgs (fun _ => 0) songDemoText 0 1 ++
          song_chorus_msgs (fun _ => 0) songDemoText 0 1 ++ song_verse_msgs (fun _ => 0) songDemoText 0 1).drop 3).take
          (song_verse_msgs (fun _ => 0) songDemoText 0 1).length =
        ((p1 ++ song_verse_msgs (fun _ => 0) songDemoText 0 1 ++
          song_chorus_msgs (fun _ => 0) songDemoText 0 1 ++ song_verse_msgs (fun _ => 0) songDemoText 0 1).drop
            (3 + (song_verse_msgs (fun _ => 0) songDemoText 0 1).length +
              (song_chorus_msgs (fun _ => 0) songDemoText 0 1).length)).take
          (song_verse_msgs (fun _ => 0) songDemoText 0 1).length) :=
  ⟨by decide,
    song_mode_verse_repeat (fun _ => 0) songDemoText 120 ("default".data) 0 (by decide)⟩

/-- `DRUM_PATTERN_A` (identical in both source files); already listed
in step order 1..16. -/
def DRUM_PATTERN_A : List (List Char × Nat) :=
  [("K".data, 1), ("H".data, 2), ("H".data, 3), ("H".data, 4),
   ("S".data, 5), ("H".data, 6), ("H".data, 7), ("H".data, 8),
   ("K".data, 9), ("H".data, 10), ("H".data, 11), ("H".data, 12),
   ("S".data, 13), ("H".data, 14), ("H".data, 15), ("H".data, 16)]

/-- `DRUM_PATTERN_B` (identical in both source files). -/
def DRUM_PATTERN_B : List (List Char × Nat) :=
  [("K".data, 1), ("H".data, 2), ("H".data, 3), ("H".data, 4),
   ("S".data, 5), ("H".data, 6), ("K".data, 7), ("H".data, 8),
   ("K".data, 9), ("H".data, 10), ("H".data, 11), ("H".data, 12),
   ("S".data, 13), ("H".data, 14), ("K".data, 15), ("H".data, 16)]

/-- `DRUM_PATTERN_C` (identical in both source files). -/
def DRUM_PATTERN_C : List (List Char × Nat) :=
  [("K".data, 1), ("H".data, 2), ("H".data, 3), ("H".data, 4),
   ("S".data, 5), ("H".data, 6), ("S".data, 7), ("H".data, 8),
   ("K".data, 9), ("K".data, 10), ("S".data, 11), ("S".data, 12),
   ("K".data, 13), ("H".data, 14), ("S".data, 15), ("H".data, 16)]

/-- `DRUM_NOTE_MAP`: Kick 36, Snare 38, closed Hi-Hat 42. -/
def DRUM_NOTE_MAP : List (List Char × Nat) :=
  [("K".data, 36), ("S".data, 38), ("H".data, 42)]

/-- `DRUM_MARKOV` (identical in both source files); the float literals
are modelled as exact rationals, whose partial sums branch exactly as
the IEEE doubles do for these tables. -/
def DRUM_MARKOV : List (List Char × List (List Char × ℚ)) :=
  [("A".data, [("A".data, 2/5), ("B".data, 2/5), ("C".data, 1/5)]),
   ("B".data, [("A".data, 3/10), ("B".data, 1/5), ("C".data, 1/2)]),
   ("C".data, [("A".data, 3/5), ("B".data, 2/5)])]

/-- `list(pattern_map.keys())` in insertion order. -/
def drumPatternKeys : List (List Char) := ["A".data, "B".data, "C".data]

/-- `get_drum_pattern_map()` / `get_drums_pattern_map()`. -/
def get_drum_pattern_map : List (List Char × List (List Char × Nat)) :=
  [("A".data, DRUM_PATTERN_A), ("B".data, DRUM_PATTERN_B), ("C".data, DRUM_PATTERN_C)]

/-- The accumulation loop of `choose_next_pattern`: walk the
transition list adding probabilities; return the first entry with
`r < accum`, else `None`. -/
def choose_fold (r : ℚ) : List (List Char × ℚ) → ℚ → Option (List Char)
  | [], _ => none
  | e :: rest, accum =>
    let accum2 := accum + e.2
    if r < accum2 then some e.1 else choose_fold r rest accum2

/-- `choose_next_pattern` (identical logic in both source files), with
the drawn `random.random()` value `r` passed explicitly. -/
def choose_next_pattern (r : ℚ) (current_id : List Char) : Option (List Char) :=
  match lookupTable DRUM_MARKOV current_id with
  | none => none
  | some choices => choose_fold r choices 0

/-- Stable insertion used to model Python's stable `sorted(pattern,
key=lambda x: x[1])`. -/
def insertByStep (x : List Char × Nat) : List (List Char × Nat) → List (List Char × Nat)
  | [] => [x]
  | y :: ys => if y.2 ≤ x.2 then y :: insertByStep x ys else x :: y :: ys

/-- `sorted(pattern, key=lambda x: x[1])` (stable). -/
def sortPattern (p : List (List Char × Nat)) : List (List Char × Nat) :=
  p.foldr insertByStep []

/-- The per-pair loop shared by `write_full_drum_measure`
(`random_music.py`, velocities 60–100, channel 9) and
`write_drum_measure` (`en_musictester.py`, velocities 70–100, channel
parameter): delta from the step grid, note-on, fixed 50-tick
note-off; accumulates the elapsed ticks and the draw index. -/
def drumFullLoop (g : Nat → Nat) (velLo velHi ch : Nat) (step_tick : Int) :
    List (List Char × Nat) → Int → Nat → List Msg × Int × Nat
  | [], accum, i => ([], accum, i)
  | e :: rest, accum, i =>
    let event_tick : Int := ((e.2 : Int) - 1) * step_tick
    let delta := event_tick - accum
    match lookupTable DRUM_NOTE_MAP e.1 with
    | some note =>
      let vel := randint g i velLo velHi
      let tail := drumFullLoop g velLo velHi ch step_tick rest (event_tick + 50) (i + 1)
      (Msg.noteOn note vel delta ch :: Msg.noteOff note 0 50 ch :: tail.1, tail.2)
    | none => drumFullLoop g velLo velHi ch step_tick rest event_tick i

/-- `write_full_drum_measure` from `random_music.py`: run the loop
over the sorted pattern, then always append the zero-velocity filler
advancing to the end of the measure (`remain` floored at 0); returns
the messages, `current_time + measure_ticks`, and the draw index. -/
def write_full_drum_measure (g : Nat → Nat) (i : Nat)
    (pattern : List (List Char × Nat)) (current_time measure_ticks : Nat) :
    List Msg × Nat × Nat :=
  let step_tick : Int := (measure_ticks : Int) / 16
  let loop := drumFullLoop g 60 100 9 step_tick (sortPattern pattern) 0 i
  let remain0 := (measure_ticks : Int) - loop.2.1
  let remain := if remain0 < 0 then 0 else remain0
  (loop.1 ++ [Msg.noteOn 36 0 remain 9], current_time + measure_ticks, loop.2.2)

/-- `write_drum_measure` from `en_musictester.py`: as
`write_full_drum_measure` but with velocities 70–100, an explicit
channel, and the filler appended only when `remainder > 0`. -/
def write_drum_measure (g : Nat → Nat) (i : Nat)
    (pattern : List (List Char × Nat)) (measure_ticks ch : Nat) :
    List Msg × Nat :=
  let step_tick : Int := (measure_ticks : Int) / 16
  let loop := drumFullLoop g 70 100 ch step_tick (sortPattern pattern) 0 i
  let remain0 := (measure_ticks : Int) - loop.2.1
  let remain := if remain0 < 0 then 0 else remain0
  (loop.1 ++ (if 0 < remain then [Msg.noteOn 36 0 remain ch] else []), loop.2.2)

/-- The per-pair loop of `write_partial_drum_measure`
(`random_music.py`): stop at the first pair whose step tick exceeds
`leftover`; clamp the note-off so the elapsed ticks never exceed
`leftover` (floored at 0); additionally break once `accum >=
leftover`. -/
def drumPartialLoopRM (g : Nat → Nat) (velLo velHi ch : Nat) (leftover : Int) :
    List (List Char × Nat) → Int → Nat → List Msg × Int × Nat
  | [], accum, i => ([], accum, i)
  | e :: rest, accum, i =>
    let event_tick : Int := ((e.2 : Int) - 1) * 120
    if leftover < event_tick then ([], accum, i)
    else
      let delta := event_tick - accum
      match lookupTable DRUM_NOTE_MAP e.1 with
      | some note =>
        let vel := randint g i velLo velHi
        let off0 : Int := 50
        let off :=
          if leftover < event_tick + off0 then
            if leftover - event_tick < 0 then 0 else leftover - event_tick
          else off0
        let accum2 := event_tick + off
        if leftover ≤ accum2 then
          ([Msg.noteOn note vel delta ch, Msg.noteOff note 0 off ch], accum2, i + 1)
        else
          let tail := drumPartialLoopRM g velLo velHi ch leftover rest accum2 (i + 1)
          (Msg.noteOn note vel delta ch :: Msg.noteOff note 0 off ch :: tail.1, tail.2)
      | none =>
        if leftover ≤ event_tick then ([], event_tick, i)
        else drumPartialLoopRM g velLo velHi ch leftover rest event_tick i

/-- The per-pair loop of `write_drum_partial_measure`
(`en_musictester.py`): as the `random_music.py` loop but without the
`accum >= leftover` break. -/
def drumPartialLoopEN (g : Nat → Nat) (velLo velHi ch : Nat) (leftover : Int) :
    List (List Char × Nat) → Int → Nat → List Msg × Int × Nat
  | [], accum, i => ([], accum, i)
  | e :: rest, accum, i =>
    let event_tick : Int := ((e.2 : Int) - 1) * 120
    if leftover < event_tick then ([], accum, i)
    else
      let delta := event_tick - accum
      match lookupTable DRUM_NOTE_MAP e.1 with
      | some note =>
        let vel := randint g i velLo velHi
        let off0 : Int := 50
        let off :=
          if leftover < event_tick + off0 then
            if leftover - event_tick < 0 then 0 else leftover - event_tick
          else off0
        let accum2 := event_tick + off
        let tail := drumPartialLoopEN g velLo velHi ch leftover rest accum2 (i + 1)
        (Msg.noteOn note vel delta ch :: Msg.noteOff note 0 off ch :: tail.1, tail.2)
      | none => drumPartialLoopEN g velLo velHi ch leftover rest event_tick i

/-- `write_partial_drum_measure` from `random_music.py` (velocities
60–100, channel 9, filler only when `remain > 0`); returns the
messages, `current_time + leftover`, and the draw index. -/
def write_partial_drum_measure (g : Nat → Nat) (i : Nat)
    (pattern : List (List Char × Nat)) (current_time leftover : Nat) :
    List Msg × Nat × Nat :=
  let loop := drumPartialLoopRM g 60 100 9 (leftover : Int) (sortPattern pattern) 0 i
  let remain := (leftover : Int) - loop.2.1
  (loop.1 ++ (if 0 < remain then [Msg.noteOn 36 0 remain 9] else []),
   current_time + leftover, loop.2.2)

/-- `write_drum_partial_measure` from `en_musictester.py` (velocities
70–100, explicit channel, filler only when `remainder > 0`). -/
def write_drum_partial_measure (g : Nat → Nat) (i : Nat)
    (pattern : List (List Char × Nat)) (leftover ch : Nat) :
    List Msg × Nat :=
  let loop := drumPartialLoopEN g 70 100 ch (leftover : Int) (sortPattern pattern) 0 i
  let remain := (leftover : Int) - loop.2.1
  (loop.1 ++ (if 0 < remain then [Msg.noteOn 36 0 remain ch] else []), loop.2.2)

/-- Count of note-off messages: one per rendered pattern pair (the
filler and gap events are note-ons). -/
def countNoteOffs (msgs : List Msg) : Nat :=
  (msgs.filter fun m => match m with | .noteOff _ _ _ _ => true | _ => false).length

/-- All running delta-time prefix sums of `msgs`, starting from `a`,
stay `≤ L` (checked before and after every message). -/
def prefixSumsLe : List Msg → Int → Int → Bool
  | [], a, L => decide (a ≤ L)
  | m :: rest, a, L => decide (a ≤ L) && prefixSumsLe rest (a + m.time) L

theorem prefixSumsLe_append (x y : List Msg) (a L : Int)
    (hx : prefixSumsLe x a L = true) (hy : prefixSumsLe y (a + sumTimes x) L = true) :
    prefixSumsLe (x ++ y) a L = true := by
  induction x generalizing a with
  | nil =>
    simpa [sumTimes_nil] using hy
  | cons m rest ih =>
    simp only [prefixSumsLe, Bool.and_eq_true] at hx
    simp only [List.cons_append, prefixSumsLe, Bool.and_eq_true]
    refine ⟨hx.1, ih (a + m.time) hx.2 ?_⟩
    rw [sumTimes_cons] at hy
    convert hy using 2
    ring

theorem drumPartialLoopRM_accum_le (g : Nat → Nat) (lo hi ch : Nat) (L : Int) :
    ∀ (l : List (List Char × Nat)) (a : Int) (i : Nat), a ≤ L →
      (drumPartialLoopRM g lo hi ch L l a i).2.1 ≤ L := by
  intro l
  induction l with
  | nil => intro a i ha; exact ha
  | cons e rest ih =>
    intro a i ha
    by_cases h1 : L < ((e.2 : Int) - 1) * 120
    · simp only [drumPartialLoopRM, if_pos h1]
      exact ha
    · cases hk : lookupTable DRUM_NOTE_MAP e.1 with
      | some note =>
        set E : Int := ((e.2 : Int) - 1) * 120 with hE
        set off : Int :=
          (if L < E + 50 then if L - E < 0 then 0 else L - E else 50) with hoff
        have hacc2 : E + off ≤ L := by
          rw [hoff]
          split
          · split <;> omega
          · omega
        by_cases h2 : L ≤ E + off
        · simp only [drumPartialLoopRM, if_neg h1, hk, ← hE, ← hoff, if_pos h2]
          exact hacc2
        · simp only [drumPartialLoopRM, if_neg h1, hk, ← hE, ← hoff, if_neg h2]
          exact ih (E + off) (i + 1) hacc2
      | none =>
        by_cases h2 : L ≤ ((e.2 : Int) - 1) * 120
        · simp only [drumPartialLoopRM, if_neg h1, hk, if_pos h2]
          omega
        · simp only [drumPartialLoopRM, if_neg h1, hk, if_neg h2]
          exact ih _ i (by omega)

theorem drumPartialLoopRM_sum (g : Nat → Nat) (lo hi ch : Nat) (L : Int) :
    ∀ (l : List (List Char × Nat)) (a : Int) (i : Nat),
      (∀ e ∈ l, lookupTable DRUM_NOTE_MAP e.1 ≠ none) →
      sumTimes (drumPartialLoopRM g lo hi ch L l a i).1 =
        (drumPartialLoopRM g lo hi ch L l a i).2.1 - a := by
  intro l
  induction l with
  | nil =>
    intro a i _
    simp [drumPartialLoopRM, sumTimes_nil]
  | cons e rest ih =>
    intro a i h
    by_cases h1 : L < ((e.2 : Int) - 1) * 120
    · simp [drumPartialLoopRM, if_pos h1, sumTimes_nil]
    · cases hk : lookupTable DRUM_NOTE_MAP e.1 with
      | some note =>
        set E : Int := ((e.2 : Int) - 1) * 120 with hE
        set off : Int :=
          (if L < E + 50 then if L - E < 0 then 0 else L - E else 50) with hoff
        by_cases h2 : L ≤ E + off
        · simp only [drumPartialLoopRM, if_neg h1, hk, ← hE, ← hoff, if_pos h2,
            sumTimes_cons, sumTimes_nil, Msg.time]
          ring
        · simp only [drumPartialLoopRM, if_neg h1, hk, ← hE, ← hoff, if_neg h2,
            sumTimes_cons, Msg.time]
          rw [ih (E + off) (i + 1) (fun x hx => h x (List.mem_cons_of_mem _ hx))]
          ring
      | none =>
        exact absurd hk (h e (List.mem_cons_self e rest))

theorem drumPartialLoopRM_prefix (g : Nat → Nat) (lo hi ch : Nat) (L : Int) :
    ∀ (l : List (List Char × Nat)) (a : Int) (i : Nat), a ≤ L →
      (∀ e ∈ l, lookupTable DRUM_NOTE_MAP e.1 ≠ none) →
      prefixSumsLe (drumPartialLoopRM g lo hi ch L l a i).1 a L = true := by
  intro l
  induction l with
  | nil =>
    intro a i ha _
    simpa [drumPartialLoopRM, prefixSumsLe] using ha
  | cons e rest ih =>
    intro a i ha h
    by_cases h1 : L < ((e.2 : Int) - 1) * 120
    · simpa [drumPartialLoopRM, if_pos h1, prefixSumsLe] using ha
    · cases hk : lookupTable DRUM_NOTE_MAP e.1 with
      | some note =>
        set E : Int := ((e.2 : Int) - 1) * 120 with hE
        set off : Int :=
          (if L < E + 50 then if L - E < 0 then 0 else L - E else 50) with hoff
        have hEL : E ≤ L := by omega
        have hacc2 : E + off ≤ L := by
          rw [hoff]
          split
          · split <;> omega
          · omega
        by_cases h2 : L ≤ E + off
        · simp only [drumPartialLoopRM, if_neg h1, hk, ← hE, ← hoff, if_pos h2,
            prefixSumsLe, Msg.time, Bool.and_eq_true, decide_eq_true_eq]
          refine ⟨ha, ?_, ?_⟩
          · omega
          · omega
        · simp only [drumPartialLoopRM, if_neg h1, hk, ← hE, ← hoff, if_neg h2,
            prefixSumsLe, Msg.time, Bool.and_eq_true, decide_eq_true_eq]
          refine ⟨ha, ?_, ?_⟩
          · omega
          · have := ih (E + off) (i + 1) hacc2
              (fun x hx => h x (List.mem_cons_of_mem _ hx))
            convert this using 2
            ring
      | none =>
        exact absurd hk (h e (List.mem_cons_self e rest))

theorem countNoteOffs_nil : countNoteOffs [] = 0 := rfl

theorem countNoteOffs_cons_on (n v : Nat) (t : Int) (c : Nat) (l : List Msg) :
    countNoteOffs (Msg.noteOn n v t c :: l) = countNoteOffs l := rfl

theorem countNoteOffs_cons_off (n v : Nat) (t : Int) (c : Nat) (l : List Msg) :
    countNoteOffs (Msg.noteOff n v t c :: l) = countNoteOffs l + 1 := by
  simp [countNoteOffs, List.filter_cons]

theorem drumPartialLoopRM_count (g : Nat → Nat) (lo hi ch : Nat) (L : Int) :
    ∀ (l : List (List Char × Nat)) (a : Int) (i : Nat),
      (∀ e ∈ l, lookupTable DRUM_NOTE_MAP e.1 ≠ none) →
      List.Pairwise (fun p q => p.2 < q.2) l →
      countNoteOffs (drumPartialLoopRM g lo hi ch L l a i).1 =
        (l.filter (fun p => decide (((p.2 : Int) - 1) * 120 ≤ L))).length := by
  intro l
  induction l with
  | nil =>
    intro a i _ _
    simp [drumPartialLoopRM, countNoteOffs]
  | cons e rest ih =>
    intro a i h hp
    obtain ⟨hp1, hp2⟩ := List.pairwise_cons.mp hp
    by_cases h1 : L < ((e.2 : Int) - 1) * 120
    · have hrest : rest.filter (fun p => decide (((p.2 : Int) - 1) * 120 ≤ L)) = [] := by
        rw [List.filter_eq_nil_iff]
        intro q hq
        have := hp1 q hq
        simp only [decide_eq_true_eq]
        omega
      have hhead : (fun p => decide (((p.2 : Int) - 1) * 120 ≤ L)) e = false := by
        simp only [decide_eq_false_iff_not]
        omega
      simp only [drumPartialLoopRM, if_pos h1, countNoteOffs_nil, List.filter_cons,
        hhead, if_neg Bool.false_ne_true, hrest, List.length_nil]
    · cases hk : lookupTable DRUM_NOTE_MAP e.1 with
      | some note =>
        set E : Int := ((e.2 : Int) - 1) * 120 with hE
        set off : Int :=
          (if L < E + 50 then if L - E < 0 then 0 else L - E else 50) with hoff
        have hoff50 : off ≤ 50 := by
          rw [hoff]
          split
          · split <;> omega
          · omega
        have hhead : (fun p => decide (((p.2 : Int) - 1) * 120 ≤ L)) e = true := by
          simp only [decide_eq_true_eq]
          omega
        by_cases h2 : L ≤ E + off
        · have hrest : rest.filter (fun p => decide (((p.2 : Int) - 1) * 120 ≤ L)) = [] := by
            rw [List.filter_eq_nil_iff]
            intro q hq
            have := hp1 q hq
            simp only [decide_eq_true_eq]
            omega
          simp only [drumPartialLoopRM, if_neg h1, hk, ← hE, ← hoff, if_pos h2,
            List.filter_cons, hhead, hrest]
          rw [countNoteOffs_cons_on, countNoteOffs_cons_off, countNoteOffs_nil]
          simp
        · simp only [drumPartialLoopRM, if_neg h1, hk, ← hE, ← hoff, if_neg h2,
            List.filter_cons, hhead]
          rw [countNoteOffs_cons_on, countNoteOffs_cons_off,
            ih (E + off) (i + 1) (fun x hx => h x (List.mem_cons_of_mem _ hx)) hp2]
          simp
      | none =>
        exact absurd hk (h e (List.mem_cons_self e rest))

theorem drumPartialLoopEN_accum_le (g : Nat → Nat) (lo hi ch : Nat) (L : Int) :
    ∀ (l : List (List Char × Nat)) (a : Int) (i : Nat), a ≤ L →
      (drumPartialLoopEN g lo hi ch L l a i).2.1 ≤ L := by
  intro l
  induction l with
  | nil => intro a i ha; exact ha
  | cons e rest ih =>
    intro a i ha
    by_cases h1 : L < ((e.2 : Int) - 1) * 120
    · simp only [drumPartialLoopEN, if_pos h1]
      exact ha
    · cases hk : lookupTable DRUM_NOTE_MAP e.1 with
      | some note =>
        set E : Int := ((e.2 : Int) - 1) * 120 with hE
        set off : Int :=
          (if L < E + 50 then if L - E < 0 then 0 else L - E else 50) with hoff
        have hacc2 : E + off ≤ L := by
          rw [hoff]
          split
          · split <;> omega
          · omega
        simp only [drumPartialLoopEN, if_neg h1, hk, ← hE, ← hoff]
        exact ih (E + off) (i + 1) hacc2
      | none =>
        simp only [drumPartialLoopEN, if_neg h1, hk]
        exact ih _ i (by omega)

theorem drumPartialLoopEN_sum (g : Nat → Nat) (lo hi ch : Nat) (L : Int) :
    ∀ (l : List (List Char × Nat)) (a : Int) (i : Nat),
      (∀ e ∈ l, lookupTable DRUM_NOTE_MAP e.1 ≠ none) →
      sumTimes (drumPartialLoopEN g lo hi ch L l a i).1 =
        (drumPartialLoopEN g lo hi ch L l a i).2.1 - a := by
  intro l
  induction l with
  | nil =>
    intro a i _
    simp [drumPartialLoopEN, sumTimes_nil]
  | cons e rest ih =>
    intro a i h
    by_cases h1 : L < ((e.2 : Int) - 1) * 120
    · simp [drumPartialLoopEN, if_pos h1, sumTimes_nil]
    · cases hk : lookupTable DRUM_NOTE_MAP e.1 with
      | some note =>
        set E : Int := ((e.2 : Int) - 1) * 120 with hE
        set off : Int :=
          (if L < E + 50 then if L - E < 0 then 0 else L - E else 50) with hoff
        simp only [drumPartialLoopEN, if_neg h1, hk, ← hE, ← hoff,
          sumTimes_cons, Msg.time]
        rw [ih (E + off) (i + 1) (fun x hx => h x (List.mem_cons_of_mem _ hx))]
        ring
      | none =>
        exact absurd hk (h e (List.mem_cons_self e rest))

theorem drumPartialLoopEN_prefix (g : Nat → Nat) (lo hi ch : Nat) (L : Int) :
    ∀ (l : List (List Char × Nat)) (a : Int) (i : Nat), a ≤ L →
      (∀ e ∈ l, lookupTable DRUM_NOTE_MAP e.1 ≠ none) →
      prefixSumsLe (drumPartialLoopEN g lo hi ch L l a i).1 a L = true := by
  intro l
  induction l with
  | nil =>
    intro a i ha _
    simpa [drumPartialLoopEN, prefixSumsLe] using ha
  | cons e rest ih =>
    intro a i ha h
    by_cases h1 : L < ((e.2 : Int) - 1) * 120
    · simpa [drumPartialLoopEN, if_pos h1, prefixSumsLe] using ha
    · cases hk : lookupTable DRUM_NOTE_MAP e.1 with
      | some note =>
        set E : Int := ((e.2 : Int) - 1) * 120 with hE
        set off : Int :=
          (if L < E + 50 then if L - E < 0 then 0 else L - E else 50) with hoff
        have hEL : E ≤ L := by omega
        have hacc2 : E + off ≤ L := by
          rw [hoff]
          split
          · split <;> omega
          · omega
        simp only [drumPartialLoopEN, if_neg h1, hk, ← hE, ← hoff,
          prefixSumsLe, Msg.time, Bool.and_eq_true, decide_eq_true_eq]
        refine ⟨ha, ?_, ?_⟩
        · omega
        · have := ih (E + off) (i + 1) hacc2
            (fun x hx => h x (List.mem_cons_of_mem _ hx))
          convert this using 2
          ring
      | none =>
        exact absurd hk (h e (List.mem_cons_self e rest))

theorem drumPartialLoopEN_count (g : Nat → Nat) (lo hi ch : Nat) (L : Int) :
    ∀ (l : List (List Char × Nat)) (a : Int) (i : Nat),
      (∀ e ∈ l, lookupTable DRUM_NOTE_MAP e.1 ≠ none) →
      List.Pairwise (fun p q => p.2 < q.2) l →
      countNoteOffs (drumPartialLoopEN g lo hi ch L l a i).1 =
        (l.filter (fun p => decide (((p.2 : Int) - 1) * 120 ≤ L))).length := by
  intro l
  induction l with
  | nil =>
    intro a i _ _
    simp [drumPartialLoopEN, countNoteOffs]
  | cons e rest ih =>
    intro a i h hp
    obtain ⟨hp1, hp2⟩ := List.pairwise_cons.mp hp
    by_cases h1 : L < ((e.2 : Int) - 1) * 120
    · have hrest : rest.filter (fun p => decide (((p.2 : Int) - 1) * 120 ≤ L)) = [] := by
        rw [List.filter_eq_nil_iff]
        intro q hq
        have := hp1 q hq
        simp only [decide_eq_true_eq]
        omega
      have hhead : (fun p => decide (((p.2 : Int) - 1) * 120 ≤ L)) e = false := by
        simp only [decide_eq_false_iff_not]
        omega
      simp only [drumPartialLoopEN, if_pos h1, countNoteOffs_nil, List.filter_cons,
        hhead, if_neg Bool.false_ne_true, hrest, List.length_nil]
    · cases hk : lookupTable DRUM_NOTE_MAP e.1 with
      | some note =>
        set E : Int := ((e.2 : Int) - 1) * 120 with hE
        set off : Int :=
          (if L < E + 50 then if L - E < 0 then 0 else L - E else 50) with hoff
        have hhead : (fun p => decide (((p.2 : Int) - 1) * 120 ≤ L)) e = true := by
          simp only [decide_eq_true_eq]
          omega
        simp only [drumPartialLoopEN, if_neg h1, hk, ← hE, ← hoff,
          List.filter_cons, hhead]
        rw [countNoteOffs_cons_on, countNoteOffs_cons_off,
          ih (E + off) (i + 1) (fun x hx => h x (List.mem_cons_of_mem _ hx)) hp2]
        simp
      | none =>
        exact absurd hk (h e (List.mem_cons_self e rest))

theorem countNoteOffs_append (x y : List Msg) :
    countNoteOffs (x ++ y) = countNoteOffs x + countNoteOffs y := by
  simp [countNoteOffs, List.filter_append]

theorem write_partial_drum_measure_props (g : Nat → Nat) (i ct leftover : Nat)
    (pattern : List (List Char × Nat))
    (hk : ∀ e ∈ sortPattern pattern, lookupTable DRUM_NOTE_MAP e.1 ≠ none)
    (hpw : List.Pairwise (fun p q => p.2 < q.2) (sortPattern pattern))
    (hpos : 0 < leftover) :
    sumTimes (write_partial_drum_measure g i pattern ct leftover).1 = (leftover : Int) ∧
    prefixSumsLe (write_partial_drum_measure g i pattern ct leftover).1 0
      (leftover : Int) = true ∧
    countNoteOffs (write_partial_drum_measure g i pattern ct leftover).1 =
      ((sortPattern pattern).filter
        (fun p => decide (((p.2 : Int) - 1) * 120 ≤ (leftover : Int)))).length := by
  have h0L : (0 : Int) ≤ (leftover : Int) := by positivity
  have hsum := drumPartialLoopRM_sum g 60 100 9 (leftover : Int) (sortPattern pattern) 0 i hk
  have hle := drumPartialLoopRM_accum_le g 60 100 9 (leftover : Int) (sortPattern pattern) 0 i h0L
  have hpre := drumPartialLoopRM_prefix g 60 100 9 (leftover : Int) (sortPattern pattern) 0 i h0L hk
  have hcnt := drumPartialLoopRM_count g 60 100 9 (leftover : Int) (sortPattern pattern) 0 i hk hpw
  set loop := drumPartialLoopRM g 60 100 9 (leftover : Int) (sortPattern pattern) 0 i
    with hloop
  have hmsgs : (write_partial_drum_measure g i pattern ct leftover).1 =
      loop.1 ++ (if 0 < (leftover : Int) - loop.2.1 then
        [Msg.noteOn 36 0 ((leftover : Int) - loop.2.1) 9] else []) := rfl
  refine ⟨?_, ?_, ?_⟩
  · rw [hmsgs, sumTimes_append, hsum]
    by_cases hr : 0 < (leftover : Int) - loop.2.1
    · rw [if_pos hr]
      simp only [sumTimes_cons, sumTimes_nil, Msg.time]
      ring
    · rw [if_neg hr]
      simp only [sumTimes_nil]
      omega
  · rw [hmsgs]
    refine prefixSumsLe_append _ _ _ _ hpre ?_
    rw [show (0 : Int) + sumTimes loop.1 = loop.2.1 by rw [hsum]; ring]
    by_cases hr : 0 < (leftover : Int) - loop.2.1
    · rw [if_pos hr]
      simp only [prefixSumsLe, Msg.time, Bool.and_eq_true, decide_eq_true_eq]
      omega
    · rw [if_neg hr]
      simp only [prefixSumsLe, decide_eq_true_eq]
      omega
  · rw [hmsgs, countNoteOffs_append]
    by_cases hr : 0 < (leftover : Int) - loop.2.1
    · rw [if_pos hr, countNoteOffs_cons_on, countNoteOffs_nil]
      rw [hcnt]
      omega
    · rw [if_neg hr, countNoteOffs_nil]
      rw [hcnt]
      omega

theorem write_drum_partial_measure_props (g : Nat → Nat) (i ch leftover : Nat)
    (pattern : List (List Char × Nat))
    (hk : ∀ e ∈ sortPattern pattern, lookupTable DRUM_NOTE_MAP e.1 ≠ none)
    (hpw : List.Pairwise (fun p q => p.2 < q.2) (sortPattern pattern))
    (hpos : 0 < leftover) :
    sumTimes (write_drum_partial_measure g i pattern leftover ch).1 = (leftover : Int) ∧
    prefixSumsLe (write_drum_partial_measure g i pattern leftover ch).1 0
      (leftover : Int) = true ∧
    countNoteOffs (write_drum_partial_measure g i pattern leftover ch).1 =
      ((sortPattern pattern).filter
        (fun p => decide (((p.2 : Int) - 1) * 120 ≤ (leftover : Int)))).length := by
  have h0L : (0 : Int) ≤ (leftover : Int) := by positivity
  have hsum := drumPartialLoopEN_sum g 70 100 ch (leftover : Int) (sortPattern pattern) 0 i hk
  have hle := drumPartialLoopEN_accum_le g 70 100 ch (leftover : Int) (sortPattern pattern) 0 i h0L
  have hpre := drumPartialLoopEN_prefix g 70 100 ch (leftover : Int) (sortPattern pattern) 0 i h0L hk
  have hcnt := drumPartialLoopEN_count g 70 100 ch (leftover : Int) (sortPattern pattern) 0 i hk hpw
  set loop := drumPartialLoopEN g 70 100 ch (leftover : Int) (sortPattern pattern) 0 i
    with hloop
  have hmsgs : (write_drum_partial_measure g i pattern leftover ch).1 =
      loop.1 ++ (if 0 < (leftover : Int) - loop.2.1 then
        [Msg.noteOn 36 0 ((leftover : Int) - loop.2.1) ch] else []) := rfl
  refine ⟨?_, ?_, ?_⟩
  · rw [hmsgs, sumTimes_append, hsum]
    by_cases hr : 0 < (leftover : Int) - loop.2.1
    · rw [if_pos hr]
      simp only [sumTimes_cons, sumTimes_nil, Msg.time]
      ring
    · rw [if_neg hr]
      simp only [sumTimes_nil]
      omega
  · rw [hmsgs]
    refine prefixSumsLe_append _ _ _ _ hpre ?_
    rw [show (0 : Int) + sumTimes loop.1 = loop.2.1 by rw [hsum]; ring]
    by_cases hr : 0 < (leftover : Int) - loop.2.1
    · rw [if_pos hr]
      simp only [prefixSumsLe, Msg.time, Bool.and_eq_true, decide_eq_true_eq]
      omega
    · rw [if_neg hr]
      simp only [prefixSumsLe, decide_eq_true_eq]
      omega
  · rw [hmsgs, countNoteOffs_append]
    by_cases hr : 0 < (leftover : Int) - loop.2.1
    · rw [if_pos hr, countNoteOffs_cons_on, countNoteOffs_nil]
      rw [hcnt]
      omega
    · rw [if_neg hr, countNoteOffs_nil]
      rw [hcnt]
      omega

/-- C2: for each drum pattern of the table and every leftover budget
with `0 < leftover < 1920`, both partial-measure renderers
(`write_partial_drum_measure` of `random_music.py` and
`write_drum_partial_measure` of `en_musictester.py`) emit exactly one
note-on/note-off pair per sorted pattern pair whose step tick is
within the budget and none for the pairs beyond it (skipped without
emitting), keep every running delta-time prefix sum at or below
`leftover` (the last note-off is clamped, floored at 0), pad the
remainder with a filler event, and make the emitted delta-times sum
to exactly `leftover`. -/
theorem partial_measure_exact (g : Nat → Nat) (i ct ch leftover : Nat)
    (pattern : List (List Char × Nat))
    (hpat : pattern = DRUM_PATTERN_A ∨ pattern = DRUM_PATTERN_B ∨
      pattern = DRUM_PATTERN_C)
    (hpos : 0 < leftover) (hlt : leftover < 1920) :
    (sumTimes (write_partial_drum_measure g i pattern ct leftover).1 = (leftover : Int) ∧
     prefixSumsLe (write_partial_drum_measure g i pattern ct leftover).1 0
       (leftover : Int) = true ∧
     countNoteOffs (write_partial_drum_measure g i pattern ct leftover).1 =
       ((sortPattern pattern).filter
         (fun p => decide (((p.2 : Int) - 1) * 120 ≤ (leftover : Int)))).length) ∧
    (sumTimes (write_drum_partial_measure g i pattern leftover ch).1 = (leftover : Int) ∧
     prefixSumsLe (write_drum_partial_measure g i pattern leftover ch).1 0
       (leftover : Int) = true ∧
     countNoteOffs (write_drum_partial_measure g i pattern leftover ch).1 =
       ((sortPattern pattern).filter
         (fun p => decide (((p.2 : Int) - 1) * 120 ≤ (leftover : Int)))).length) := by
  rcases hpat with rfl | rfl | rfl
  · exact ⟨write_partial_drum_measure_props g i ct leftover DRUM_PATTERN_A
      (by decide) (by decide) hpos,
      write_drum_partial_measure_props g i ch leftover DRUM_PATTERN_A
      (by decide) (by decide) hpos⟩
  · exact ⟨write_partial_drum_measure_props g i ct leftover DRUM_PATTERN_B
      (by decide) (by decide) hpos,
      write_drum_partial_measure_props g i ch leftover DRUM_PATTERN_B
      (by decide) (by decide) hpos⟩
  · exact ⟨write_partial_drum_measure_props g i ct leftover DRUM_PATTERN_C
      (by decide) (by decide) hpos,
      write_drum_partial_measure_props g i ch leftover DRUM_PATTERN_C
      (by decide) (by decide) hpos⟩

theorem partial_measure_exact_witness :
    (DRUM_PATTERN_A = DRUM_PATTERN_A ∨ DRUM_PATTERN_A = DRUM_PATTERN_B ∨
      DRUM_PATTERN_A = DRUM_PATTERN_C) ∧ 0 < 70 ∧ 70 < 1920 ∧
    ((sumTimes (write_partial_drum_measure (fun _ => 0) 0 DRUM_PATTERN_A 0 70).1 =
        ((70 : Nat) : Int) ∧
      prefixSumsLe (write_partial_drum_measure (fun _ => 0) 0 DRUM_PATTERN_A 0 70).1 0
        ((70 : Nat) : Int) = true ∧
      countNoteOffs (write_partial_drum_measure (fun _ => 0) 0 DRUM_PATTERN_A 0 70).1 =
        ((sortPattern DRUM_PATTERN_A).filter
          (fun p => decide (((p.2 : Int) - 1) * 120 ≤ ((70 : Nat) : Int)))).length) ∧
     (sumTimes (write_drum_partial_measure (fun _ => 0) 0 DRUM_PATTERN_A 70 9).1 =
        ((70 : Nat) : Int) ∧
      prefixSumsLe (write_drum_partial_measure (fun _ => 0) 0 DRUM_PATTERN_A 70 9).1 0
        ((70 : Nat) : Int) = true ∧
      countNoteOffs (write_drum_partial_measure (fun _ => 0) 0 DRUM_PATTERN_A 70 9).1 =
        ((sortPattern DRUM_PATTERN_A).filter
          (fun p => decide (((p.2 : Int) - 1) * 120 ≤ ((70 : Nat) : Int)))).length)) :=
  ⟨Or.inl rfl, by decide, by decide,
    partial_measure_exact (fun _ => 0) 0 0 9 70 DRUM_PATTERN_A (Or.inl rfl)
      (by decide) (by decide)⟩

/-- The running cumulative probabilities of a transition list, used to
state the spec's "first entry whose cumulative probability exceeds
`r`" rule. -/
def cumulSums (acc : ℚ) : List (List Char × ℚ) → List (List Char × ℚ)
  | [] => []
  | e :: rest => (e.1, acc + e.2) :: cumulSums (acc + e.2) rest

/-- Modelled from the spec's words (§4.6): walk the transition list in
table order and return the first entry whose cumulative probability
exceeds `r`. -/
def spec_first_exceeding (r : ℚ) (choices : List (List Char × ℚ)) : Option (List Char) :=
  ((cumulSums 0 choices).find? (fun e => decide (r < e.2))).map Prod.fst

theorem choose_fold_eq_spec (r : ℚ) :
    ∀ (l : List (List Char × ℚ)) (acc : ℚ),
      choose_fold r l acc = ((cumulSums acc l).find? (fun e => decide (r < e.2))).map Prod.fst := by
  intro l
  induction l with
  | nil => intro acc; rfl
  | cons e rest ih =>
    intro acc
    simp only [choose_fold, cumulSums, List.find?]
    by_cases hr : r < acc + e.2
    · simp [hr]
    · rw [if_neg hr]
      have hd : decide (r < acc + e.2) = false := decide_eq_false hr
      rw [hd]
      simp only [Bool.false_eq_true, if_false]
      exact ih (acc + e.2)

/-- Total probability mass of a transition list. -/
def totalProb (choices : List (List Char × ℚ)) : ℚ := (choices.map Prod.snd).sum

theorem choose_fold_none_of_total_le (r : ℚ) :
    ∀ (l : List (List Char × ℚ)) (acc : ℚ), (∀ e ∈ l, 0 ≤ e.2) →
      acc + totalProb l ≤ r → choose_fold r l acc = none := by
  intro l
  induction l with
  | nil => intro acc _ _; rfl
  | cons e rest ih =>
    intro acc hnn htot
    simp only [totalProb, List.map_cons, List.sum_cons] at htot
    have hrsum : (0 : ℚ) ≤ totalProb rest := by
      unfold totalProb
      apply List.sum_nonneg
      intro x hx
      obtain ⟨p, hp, rfl⟩ := List.mem_map.mp hx
      exact hnn p (List.mem_cons_of_mem _ hp)
    have hno : ¬ r < acc + e.2 := by
      simp only [totalProb] at hrsum
      intro hcon
      nlinarith
    simp only [choose_fold, if_neg hno]
    refine ih (acc + e.2) (fun x hx => hnn x (List.mem_cons_of_mem _ hx)) ?_
    unfold totalProb
    linarith [htot]

theorem choose_fold_isSome_of_lt (r : ℚ) :
    ∀ (l : List (List Char × ℚ)) (acc : ℚ), acc ≤ r → r < acc + totalProb l →
      ∃ x, choose_fold r l acc = some x := by
  intro l
  induction l with
  | nil =>
    intro acc hacc h
    simp only [totalProb, List.map_nil, List.sum_nil, add_zero] at h
    exact absurd h (not_lt.mpr hacc)
  | cons e rest ih =>
    intro acc hacc h
    by_cases hr : r < acc + e.2
    · exact ⟨e.1, by simp [choose_fold, hr]⟩
    · simp only [choose_fold, if_neg hr]
      refine ih (acc + e.2) (not_lt.mp hr) ?_
      simp only [totalProb, List.map_cons, List.sum_cons] at h
      unfold totalProb
      linarith

/-- The `while current_time < total_length` loop of `create_drum_track`
(`random_music.py`), with explicit fuel: `none` means the fuel ran out
or a pattern-map `KeyError` occurred; `createDrumLoop_ok` shows fuel
`total/1920 + 1` always suffices and no `KeyError` occurs.  One
iteration: check the leftover, resolve a falsy pattern id by a uniform
draw, render a full measure and transition via the Markov draw when at
least one measure (1920 ticks) remains, else render the final partial
measure and stop. -/
def createDrumLoop (g : Nat → Nat) (q : Nat → ℚ) (total : Nat) :
    Nat → Nat → Nat → Option (List Char) → Option (List Msg)
  | 0, _, _, _ => none
  | fuel + 1, current_time, i, current_id =>
    if current_time < total then
      if total - current_time = 0 then some []
      else
        let idi : List Char × Nat :=
          match current_id with
          | none => (randChoice g i drumPatternKeys [], i + 1)
          | some c => (c, i)
        match lookupTable get_drum_pattern_map idi.1 with
        | none => none
        | some pattern =>
          if 1920 ≤ total - current_time then
            let m := write_full_drum_measure g idi.2 pattern current_time 1920
            match createDrumLoop g q total fuel m.2.1 (m.2.2 + 1)
                (choose_next_pattern (q m.2.2) idi.1) with
            | none => none
            | some msgs => some (m.1 ++ msgs)
          else
            some (write_partial_drum_measure g idi.2 pattern current_time
              (total - current_time)).1
    else some []

/-- `create_drum_track` from `random_music.py`: tempo and volume
metadata, a uniform initial pattern id drawn before the loop, then the
measure loop. -/
def create_drum_track (g : Nat → Nat) (q : Nat → ℚ) (total_length bpm : Nat) :
    Option (List Msg) :=
  (createDrumLoop g q total_length (total_length / 1920 + 1) 0 1
      (some (randChoice g 0 drumPatternKeys []))).map
    (fun msgs =>
      Msg.setTempo (bpm2tempo bpm) 0 :: Msg.controlChange 9 7 127 0 :: msgs)

/-- The `while current_time < total_melody_ticks` loop of
`generate_drum_to_fit_time` (`en_musictester.py`): the falsy-id
re-draw comes first, then the pattern lookup, the leftover check, and
the full/partial branch. -/
def genDrumLoop (g : Nat → Nat) (q : Nat → ℚ) (total ch : Nat) :
    Nat → Nat → Nat → Option (List Char) → Option (List Msg)
  | 0, _, _, _ => none
  | fuel + 1, current_time, i, current_id =>
    if current_time < total then
      let idi : List Char × Nat :=
        match current_id with
        | none => (randChoice g i drumPatternKeys [], i + 1)
        | some c => (c, i)
      match lookupTable get_drum_pattern_map idi.1 with
      | none => none
      | some pattern =>
        if total - current_time = 0 then some []
        else if 1920 ≤ total - current_time then
          let m := write_drum_measure g idi.2 pattern 1920 ch
          match genDrumLoop g q total ch fuel (current_time + 1920) (m.2 + 1)
              (choose_next_pattern (q m.2) idi.1) with
          | none => none
          | some msgs => some (m.1 ++ msgs)
        else
          some (write_drum_partial_measure g idi.2 pattern
            (total - current_time) ch).1
    else some []

/-- `generate_drum_to_fit_time` from `en_musictester.py`: a uniform
initial pattern id, then the measure loop (the surrounding control
messages are appended by the caller). -/
def generate_drum_to_fit_time (g : Nat → Nat) (q : Nat → ℚ)
    (total_melody_ticks ch : Nat) : Option (List Msg) :=
  genDrumLoop g q total_melody_ticks ch (total_melody_ticks / 1920 + 1) 0 1
    (some (randChoice g 0 drumPatternKeys []))

theorem write_full_sum_A (g : Nat → Nat) (i ct : Nat) :
    sumTimes (write_full_drum_measure g i DRUM_PATTERN_A ct 1920).1 = 1920 := rfl

theorem write_full_sum_B (g : Nat → Nat) (i ct : Nat) :
    sumTimes (write_full_drum_measure g i DRUM_PATTERN_B ct 1920).1 = 1920 := rfl

theorem write_full_sum_C (g : Nat → Nat) (i ct : Nat) :
    sumTimes (write_full_drum_measure g i DRUM_PATTERN_C ct 1920).1 = 1920 := rfl

theorem write_measure_sum_A (g : Nat → Nat) (i ch : Nat) :
    sumTimes (write_drum_measure g i DRUM_PATTERN_A 1920 ch).1 = 1920 := rfl

theorem write_measure_sum_B (g : Nat → Nat) (i ch : Nat) :
    sumTimes (write_drum_measure g i DRUM_PATTERN_B 1920 ch).1 = 1920 := rfl

theorem write_measure_sum_C (g : Nat → Nat) (i ch : Nat) :
    sumTimes (write_drum_measure g i DRUM_PATTERN_C 1920 ch).1 = 1920 := rfl

theorem randChoice_keys_mem (g : Nat → Nat) (i : Nat) :
    randChoice g i drumPatternKeys [] ∈ drumPatternKeys :=
  randChoice_mem g i drumPatternKeys [] (by decide)

theorem lookup_pattern_mem (c : List Char) (p : List (List Char × Nat))
    (h : lookupTable get_drum_pattern_map c = some p) :
    p = DRUM_PATTERN_A ∨ p = DRUM_PATTERN_B ∨ p = DRUM_PATTERN_C := by
  unfold lookupTable at h
  cases hf : get_drum_pattern_map.find? (fun x => decide (x.1 = c)) with
  | none => rw [hf] at h; simp at h
  | some pr =>
    rw [hf] at h
    simp at h
    have hmem : pr ∈ get_drum_pattern_map := List.mem_of_find?_eq_some hf
    simp only [get_drum_pattern_map, List.mem_cons, List.not_mem_nil, or_false] at hmem
    rcases hmem with rfl | rfl | rfl <;> simp_all

theorem keys_lookup_isSome (c : List Char) (h : c ∈ drumPatternKeys) :
    ∃ p, lookupTable get_drum_pattern_map c = some p := by
  simp only [drumPatternKeys, List.mem_cons, List.not_mem_nil, or_false] at h
  rcases h with rfl | rfl | rfl
  · exact ⟨DRUM_PATTERN_A, by decide⟩
  · exact ⟨DRUM_PATTERN_B, by decide⟩
  · exact ⟨DRUM_PATTERN_C, by decide⟩

theorem choose_fold_mem (r : ℚ) :
    ∀ (l : List (List Char × ℚ)) (acc : ℚ) (x : List Char),
      choose_fold r l acc = some x → x ∈ l.map Prod.fst := by
  intro l
  induction l with
  | nil => intro acc x h; exact absurd h (by simp [choose_fold])
  | cons e rest ih =>
    intro acc x h
    simp only [choose_fold] at h
    split at h
    · simp only [Option.some.injEq] at h
      subst h
      simp
    · exact List.mem_cons_of_mem _ (ih (acc + e.2) x h)

theorem choose_next_pattern_mem (r : ℚ) (c x : List Char)
    (h : choose_next_pattern r c = some x) : x ∈ drumPatternKeys := by
  unfold choose_next_pattern at h
  cases hf : lookupTable DRUM_MARKOV c with
  | none => rw [hf] at h; exact absurd h (by simp)
  | some choices =>
    rw [hf] at h
    have hx := choose_fold_mem r choices 0 x h
    unfold lookupTable at hf
    cases hg : DRUM_MARKOV.find? (fun p => decide (p.1 = c)) with
    | none => rw [hg] at hf; simp at hf
    | some pr =>
      rw [hg] at hf
      simp at hf
      have hmem : pr ∈ DRUM_MARKOV := List.mem_of_find?_eq_some hg
      simp only [DRUM_MARKOV, List.mem_cons, List.not_mem_nil, or_false] at hmem
      rcases hmem with rfl | rfl | rfl
      · subst hf
        simp only [List.map_cons, List.map_nil, List.mem_cons, List.not_mem_nil,
          or_false] at hx
        rcases hx with rfl | rfl | rfl <;> decide
      · subst hf
        simp only [List.map_cons, List.map_nil, List.mem_cons, List.not_mem_nil,
          or_false] at hx
        rcases hx with rfl | rfl | rfl <;> decide
      · subst hf
        simp only [List.map_cons, List.map_nil, List.mem_cons, List.not_mem_nil,
          or_false] at hx
        rcases hx with rfl | rfl <;> decide

/-- The falsy-id fallback of the scheduler loop (`random_music.py`,
`if not current_id: current_id = random.choice(...)`): an iteration
entered without a pattern id behaves exactly like the same iteration
entered with a freshly drawn uniform pattern id. -/
theorem createDrumLoop_fallback (g : Nat → Nat) (q : Nat → ℚ)
    (total fuel ct i : Nat) :
    createDrumLoop g q total (fuel + 1) ct i none =
      createDrumLoop g q total (fuel + 1) ct (i + 1)
        (some (randChoice g i drumPatternKeys [])) := rfl

theorem genDrumLoop_fallback (g : Nat → Nat) (q : Nat → ℚ)
    (total ch fuel ct i : Nat) :
    genDrumLoop g q total ch (fuel + 1) ct i none =
      genDrumLoop g q total ch (fuel + 1) ct (i + 1)
        (some (randChoice g i drumPatternKeys [])) := rfl

theorem createDrumLoop_ok (g : Nat → Nat) (q : Nat → ℚ) (total : Nat) :
    ∀ (fuel ct i : Nat) (cid : Option (List Char)),
      ct ≤ total → (total - ct) / 1920 < fuel →
      (cid = none ∨ ∃ c, cid = some c ∧ c ∈ drumPatternKeys) →
      ∃ msgs, createDrumLoop g q total fuel ct i cid = some msgs ∧
        sumTimes msgs = ((total - ct : Nat) : Int) := by
  intro fuel
  induction fuel with
  | zero =>
    intro ct i cid _ h2 _
    omega
  | succ fuel ih =>
    intro ct i cid h1 h2 h3
    have key : ∀ (j : Nat) (c : List Char), c ∈ drumPatternKeys →
        ∃ msgs, createDrumLoop g q total (fuel + 1) ct j (some c) = some msgs ∧
          sumTimes msgs = ((total - ct : Nat) : Int) := by
      intro j c hmem
      by_cases hlt : ct < total
      · have hnz : ¬ (total - ct = 0) := by omega
        obtain ⟨P, hlkp⟩ := keys_lookup_isSome c hmem
        have hPcases := lookup_pattern_mem c P hlkp
        by_cases hfull : 1920 ≤ total - ct
        · have hfsum : sumTimes (write_full_drum_measure g j P ct 1920).1 = 1920 := by
            rcases hPcases with rfl | rfl | rfl
            · exact write_full_sum_A g j ct
            · exact write_full_sum_B g j ct
            · exact write_full_sum_C g j ct
          have hvalid : choose_next_pattern
                (q (write_full_drum_measure g j P ct 1920).2.2) c = none ∨
              ∃ x, choose_next_pattern
                (q (write_full_drum_measure g j P ct 1920).2.2) c = some x ∧
                x ∈ drumPatternKeys := by
            cases hch : choose_next_pattern
                (q (write_full_drum_measure g j P ct 1920).2.2) c with
            | none => exact Or.inl rfl
            | some x => exact Or.inr ⟨x, rfl, choose_next_pattern_mem _ _ _ hch⟩
          obtain ⟨msgs', hm', hs'⟩ := ih (ct + 1920)
            ((write_full_drum_measure g j P ct 1920).2.2 + 1)
            (choose_next_pattern (q (write_full_drum_measure g j P ct 1920).2.2) c)
            (by omega) (by omega) hvalid
          refine ⟨(write_full_drum_measure g j P ct 1920).1 ++ msgs', ?_, ?_⟩
          · simp only [createDrumLoop, if_pos hlt, if_neg hnz, hlkp, if_pos hfull]
            have hct : (write_full_drum_measure g j P ct 1920).2.1 = ct + 1920 := rfl
            rw [hct, hm']
          · rw [sumTimes_append, hfsum, hs']
            omega
        · have h0 : 0 < total - ct := by omega
          have hksort : ∀ e ∈ sortPattern P, lookupTable DRUM_NOTE_MAP e.1 ≠ none := by
            rcases hPcases with rfl | rfl | rfl <;> decide
          have hpw : List.Pairwise (fun p q => p.2 < q.2) (sortPattern P) := by
            rcases hPcases with rfl | rfl | rfl <;> decide
          refine ⟨(write_partial_drum_measure g j P ct (total - ct)).1, ?_, ?_⟩
          · simp only [createDrumLoop, if_pos hlt, if_neg hnz, hlkp, if_neg hfull]
          · exact (write_partial_drum_measure_props g j ct (total - ct) P
              hksort hpw h0).1
      · refine ⟨[], ?_, ?_⟩
        · simp only [createDrumLoop, if_neg hlt]
        · rw [sumTimes_nil]
          omega
    rcases h3 with rfl | ⟨c, rfl, hmem⟩
    · rw [createDrumLoop_fallback]
      exact key (i + 1) _ (randChoice_keys_mem g i)
    · exact key i c hmem

theorem genDrumLoop_ok (g : Nat → Nat) (q : Nat → ℚ) (total ch : Nat) :
    ∀ (fuel ct i : Nat) (cid : Option (List Char)),
      ct ≤ total → (total - ct) / 1920 < fuel →
      (cid = none ∨ ∃ c, cid = some c ∧ c ∈ drumPatternKeys) →
      ∃ msgs, genDrumLoop g q total ch fuel ct i cid = some msgs ∧
        sumTimes msgs = ((total - ct : Nat) : Int) := by
  intro fuel
  induction fuel with
  | zero =>
    intro ct i cid _ h2 _
    omega
  | succ fuel ih =>
    intro ct i cid h1 h2 h3
    have key : ∀ (j : Nat) (c : List Char), c ∈ drumPatternKeys →
        ∃ msgs, genDrumLoop g q total ch (fuel + 1) ct j (some c) = some msgs ∧
          sumTimes msgs = ((total - ct : Nat) : Int) := by
      intro j c hmem
      by_cases hlt : ct < total
      · have hnz : ¬ (total - ct = 0) := by omega
        obtain ⟨P, hlkp⟩ := keys_lookup_isSome c hmem
        have hPcases := lookup_pattern_mem c P hlkp
        by_cases hfull : 1920 ≤ total - ct
        · have hfsum : sumTimes (write_drum_measure g j P 1920 ch).1 = 1920 := by
            rcases hPcases with rfl | rfl | rfl
            · exact write_measure_sum_A g j ch
            · exact write_measure_sum_B g j ch
            · exact write_measure_sum_C g j ch
          have hvalid : choose_next_pattern
                (q (write_drum_measure g j P 1920 ch).2) c = none ∨
              ∃ x, choose_next_pattern
                (q (write_drum_measure g j P 1920 ch).2) c = some x ∧
                x ∈ drumPatternKeys := by
            cases hch : choose_next_pattern
                (q (write_drum_measure g j P 1920 ch).2) c with
            | none => exact Or.inl rfl
            | some x => exact Or.inr ⟨x, rfl, choose_next_pattern_mem _ _ _ hch⟩
          obtain ⟨msgs', hm', hs'⟩ := ih (ct + 1920)
            ((write_drum_measure g j P 1920 ch).2 + 1)
            (choose_next_pattern (q (write_drum_measure g j P 1920 ch).2) c)
            (by omega) (by omega) hvalid
          refine ⟨(write_drum_measure g j P 1920 ch).1 ++ msgs', ?_, ?_⟩
          · simp only [genDrumLoop, if_pos hlt, if_neg hnz, hlkp, if_pos hfull]
            rw [hm']
          · rw [sumTimes_append, hfsum, hs']
            omega
        · have h0 : 0 < total - ct := by omega
          have hksort : ∀ e ∈ sortPattern P, lookupTable DRUM_NOTE_MAP e.1 ≠ none := by
            rcases hPcases with rfl | rfl | rfl <;> decide
          have hpw : List.Pairwise (fun p q => p.2 < q.2) (sortPattern P) := by
            rcases hPcases with rfl | rfl | rfl <;> decide
          refine ⟨(write_drum_partial_measure g j P (total - ct) ch).1, ?_, ?_⟩
          · simp only [genDrumLoop, if_pos hlt, if_neg hnz, hlkp, if_neg hfull]
          · exact (write_drum_partial_measure_props g j ch (total - ct) P
              hksort hpw h0).1
      · refine ⟨[], ?_, ?_⟩
        · simp only [genDrumLoop, if_neg hlt]
        · rw [sumTimes_nil]
          omega
    rcases h3 with rfl | ⟨c, rfl, hmem⟩
    · rw [genDrumLoop_fallback]
      exact key (i + 1) _ (randChoice_keys_mem g i)
    · exact key i c hmem

/-- C1: for every non-negative target duration, both drum schedulers
(`create_drum_track` of `random_music.py` and
`generate_drum_to_fit_time` of `en_musictester.py`) terminate and
produce a drum track whose emitted delta-times sum to exactly the
target duration — equal to the melody total, not merely within one
120-tick step, and never exceeding it. -/
theorem drum_track_duration_equality (g : Nat → Nat) (q : Nat → ℚ)
    (total bpm ch : Nat) :
    (∃ msgs, create_drum_track g q total bpm = some msgs ∧
      sumTimes msgs = (total : Int)) ∧
    (∃ msgs, generate_drum_to_fit_time g q total ch = some msgs ∧
      sumTimes msgs = (total : Int)) := by
  constructor
  · obtain ⟨msgs, hm, hs⟩ := createDrumLoop_ok g q total (total / 1920 + 1) 0 1
      (some (randChoice g 0 drumPatternKeys [])) (by omega) (by omega)
      (Or.inr ⟨_, rfl, randChoice_keys_mem g 0⟩)
    refine ⟨Msg.setTempo (bpm2tempo bpm) 0 :: Msg.controlChange 9 7 127 0 :: msgs,
      ?_, ?_⟩
    · unfold create_drum_track
      rw [hm]
      rfl
    · rw [sumTimes_cons, sumTimes_cons, hs]
      simp only [Msg.time]
      omega
  · obtain ⟨msgs, hm, hs⟩ := genDrumLoop_ok g q total ch (total / 1920 + 1) 0 1
      (some (randChoice g 0 drumPatternKeys [])) (by omega) (by omega)
      (Or.inr ⟨_, rfl, randChoice_keys_mem g 0⟩)
    refine ⟨msgs, ?_, ?_⟩
    · unfold generate_drum_to_fit_time
      exact hm
    · rw [hs]
      omega

/-- C7: the drum scheduler loop terminates for every finite target:
fuel `total/1920 + 1` (one iteration per full measure plus one) always
suffices in both source variants; each full-measure iteration advances
the elapsed time by exactly the measure length (1920 by default); a
partial measure ends the loop immediately, returning just the partial
render (shown at target 2500 after one full measure, leftover 580);
and in particular the scheduler terminates with elapsed ticks exactly
equal to the target for targets 0, 1 tick, exactly one measure
(1920), and full measures plus a remainder (2500). -/
theorem drum_scheduler_termination (g : Nat → Nat) (q : Nat → ℚ) (bpm ch : Nat) :
    (∀ total : Nat, (create_drum_track g q total bpm).isSome ∧
      (generate_drum_to_fit_time g q total ch).isSome) ∧
    (∀ (i : Nat) (pattern : List (List Char × Nat)) (ct m : Nat),
      (write_full_drum_measure g i pattern ct m).2.1 = ct + m) ∧
    (∀ fuel i, createDrumLoop g q 2500 (fuel + 1) 1920 i (some ("A".data)) =
      some (write_partial_drum_measure g i DRUM_PATTERN_A 1920 (2500 - 1920)).1) ∧
    (∃ m0, create_drum_track g q 0 bpm = some m0 ∧ sumTimes m0 = 0) ∧
    (∃ m1, create_drum_track g q 1 bpm = some m1 ∧ sumTimes m1 = 1) ∧
    (∃ m2, create_drum_track g q 1920 bpm = some m2 ∧ sumTimes m2 = 1920) ∧
    (∃ m3, create_drum_track g q 2500 bpm = some m3 ∧ sumTimes m3 = 2500) := by
  have hgen : ∀ total : Nat,
      (∃ msgs, create_drum_track g q total bpm = some msgs ∧
        sumTimes msgs = (total : Int)) := by
    intro total
    obtain ⟨msgs, hm, hs⟩ := createDrumLoop_ok g q total (total / 1920 + 1) 0 1
      (some (randChoice g 0 drumPatternKeys [])) (by omega) (by omega)
      (Or.inr ⟨_, rfl, randChoice_keys_mem g 0⟩)
    refine ⟨Msg.setTempo (bpm2tempo bpm) 0 :: Msg.controlChange 9 7 127 0 :: msgs,
      ?_, ?_⟩
    · unfold create_drum_track
      rw [hm]
      rfl
    · rw [sumTimes_cons, sumTimes_cons, hs]
      simp only [Msg.time]
      omega
  refine ⟨?_, fun i pattern ct m => rfl, ?_, ?_, ?_, ?_, ?_⟩
  · intro total
    constructor
    · obtain ⟨msgs, hm, _⟩ := hgen total
      rw [hm]
      rfl
    · obtain ⟨msgs, hm, _⟩ := genDrumLoop_ok g q total ch (total / 1920 + 1) 0 1
        (some (randChoice g 0 drumPatternKeys [])) (by omega) (by omega)
        (Or.inr ⟨_, rfl, randChoice_keys_mem g 0⟩)
      unfold generate_drum_to_fit_time
      rw [hm]
      rfl
  · intro fuel i
    simp only [createDrumLoop]
    norm_num
    rfl
  · simpa using hgen 0
  · simpa using hgen 1
  · simpa using hgen 1920
  · simpa using hgen 2500

/-- C6 counterexample: every state's transition probabilities sum to
exactly 1 — `0.4+0.4+0.2`, `0.3+0.2+0.5` and `0.6+0.4` (the same
holds for the IEEE-double accumulation of these literals).  This
refutes the claim's premise that the no-match fallback is "possible
because some states' probabilities don't sum to 1": for a drawn
`r < 1` the chooser always matches an entry. -/
theorem markov_rows_sum_to_one :
    (lookupTable DRUM_MARKOV ("A".data)).map totalProb = some 1 ∧
    (lookupTable DRUM_MARKOV ("B".data)).map totalProb = some 1 ∧
    (lookupTable DRUM_MARKOV ("C".data)).map totalProb = some 1 := by
  refine ⟨?_, ?_, ?_⟩
  · show some (totalProb [("A".data, (2/5 : ℚ)), ("B".data, 2/5), ("C".data, 1/5)]) =
      some 1
    rw [show totalProb [("A".data, (2/5 : ℚ)), ("B".data, 2/5), ("C".data, 1/5)] = 1 by
      simp [totalProb]
      norm_num]
  · show some (totalProb [("A".data, (3/10 : ℚ)), ("B".data, 1/5), ("C".data, 1/2)]) =
      some 1
    rw [show totalProb [("A".data, (3/10 : ℚ)), ("B".data, 1/5), ("C".data, 1/2)] = 1 by
      simp [totalProb]
      norm_num]
  · show some (totalProb [("A".data, (3/5 : ℚ)), ("B".data, 2/5)]) = some 1
    rw [show totalProb [("A".data, (3/5 : ℚ)), ("B".data, 2/5)] = 1 by
      simp [totalProb]
      norm_num]

/-- C6 (amended): `choose_next_pattern` returns the first
transition-table entry whose cumulative probability exceeds the drawn
`r`; when `r` is at least the state's total accumulated probability it
returns no match, and the scheduler's falsy-id fallback then redraws a
uniform pattern id at the next iteration; but since every state's
probabilities sum to exactly 1, the no-match case requires `r ≥ 1`
and never happens for a drawn `r` in `[0, 1)`. -/
theorem choose_next_pattern_props (g : Nat → Nat) (q : Nat → ℚ) :
    (∀ (r : ℚ) (c : List Char) (choices : List (List Char × ℚ)),
      lookupTable DRUM_MARKOV c = some choices →
      choose_next_pattern r c = spec_first_exceeding r choices) ∧
    (∀ r : ℚ, 1 ≤ r → choose_next_pattern r ("A".data) = none ∧
      choose_next_pattern r ("B".data) = none ∧
      choose_next_pattern r ("C".data) = none) ∧
    (∀ c ∈ drumPatternKeys, ∀ r : ℚ, 0 ≤ r → r < 1 →
      (choose_next_pattern r c).isSome) ∧
    (∀ (total fuel ct i : Nat),
      createDrumLoop g q total (fuel + 1) ct i none =
        createDrumLoop g q total (fuel + 1) ct (i + 1)
          (some (randChoice g i drumPatternKeys []))) := by
  refine ⟨?_, ?_, ?_, ?_⟩
  · intro r c choices hc
    unfold choose_next_pattern
    rw [hc]
    unfold spec_first_exceeding
    exact choose_fold_eq_spec r choices 0
  · intro r hr
    refine ⟨?_, ?_, ?_⟩
    · show choose_fold r [("A".data, (2/5 : ℚ)), ("B".data, 2/5), ("C".data, 1/5)] 0 = none
      apply choose_fold_none_of_total_le
      · intro e he
        simp only [List.mem_cons, List.not_mem_nil, or_false] at he
        rcases he with rfl | rfl | rfl <;> norm_num
      · have ht : totalProb [("A".data, (2/5 : ℚ)), ("B".data, 2/5), ("C".data, 1/5)] = 1 := by
          simp [totalProb]
          norm_num
        rw [ht]
        linarith
    · show choose_fold r [("A".data, (3/10 : ℚ)), ("B".data, 1/5), ("C".data, 1/2)] 0 = none
      apply choose_fold_none_of_total_le
      · intro e he
        simp only [List.mem_cons, List.not_mem_nil, or_false] at he
        rcases he with rfl | rfl | rfl <;> norm_num
      · have ht : totalProb [("A".data, (3/10 : ℚ)), ("B".data, 1/5), ("C".data, 1/2)] = 1 := by
          simp [totalProb]
          norm_num
        rw [ht]
        linarith
    · show choose_fold r [("A".data, (3/5 : ℚ)), ("B".data, 2/5)] 0 = none
      apply choose_fold_none_of_total_le
      · intro e he
        simp only [List.mem_cons, List.not_mem_nil, or_false] at he
        rcases he with rfl | rfl <;> norm_num
      · have ht : totalProb [("A".data, (3/5 : ℚ)), ("B".data, 2/5)] = 1 := by
          simp [totalProb]
          norm_num
        rw [ht]
        linarith
  · intro c hc r hr0 hr1
    simp only [drumPatternKeys, List.mem_cons, List.not_mem_nil, or_false] at hc
    rcases hc with rfl | rfl | rfl
    · have ht : totalProb [("A".data, (2/5 : ℚ)), ("B".data, 2/5), ("C".data, 1/5)] = 1 := by
        simp [totalProb]
        norm_num
      obtain ⟨x, hx⟩ := choose_fold_isSome_of_lt r
        [("A".data, (2/5 : ℚ)), ("B".data, 2/5), ("C".data, 1/5)] 0 hr0
        (by rw [ht]; linarith)
      show (choose_fold r [("A".data, (2/5 : ℚ)), ("B".data, 2/5), ("C".data, 1/5)] 0).isSome
      rw [hx]
      rfl
    · have ht : totalProb [("A".data, (3/10 : ℚ)), ("B".data, 1/5), ("C".data, 1/2)] = 1 := by
        simp [totalProb]
        norm_num
      obtain ⟨x, hx⟩ := choose_fold_isSome_of_lt r
        [("A".data, (3/10 : ℚ)), ("B".data, 1/5), ("C".data, 1/2)] 0 hr0
        (by rw [ht]; linarith)
      show (choose_fold r [("A".data, (3/10 : ℚ)), ("B".data, 1/5), ("C".data, 1/2)] 0).isSome
      rw [hx]
      rfl
    · have ht : totalProb [("A".data, (3/5 : ℚ)), ("B".data, 2/5)] = 1 := by
        simp [totalProb]
        norm_num
      obtain ⟨x, hx⟩ := choose_fold_isSome_of_lt r
        [("A".data, (3/5 : ℚ)), ("B".data, 2/5)] 0 hr0
        (by rw [ht]; linarith)
      show (choose_fold r [("A".data, (3/5 : ℚ)), ("B".data, 2/5)] 0).isSome
      rw [hx]
      rfl
  · intro total fuel ct i
    exact createDrumLoop_fallback g q total fuel ct i

theorem choose_next_pattern_props_witness :
    (lookupTable DRUM_MARKOV ("B".data) =
      some [("A".data, (3/10 : ℚ)), ("B".data, 1/5), ("C".data, 1/2)]) ∧
    choose_next_pattern (2/5) ("B".data) =
      spec_first_exceeding (2/5)
        [("A".data, (3/10 : ℚ)), ("B".data, 1/5), ("C".data, 1/2)] ∧
    (1 : ℚ) ≤ 3/2 ∧
    (choose_next_pattern (3/2) ("A".data) = none ∧
      choose_next_pattern (3/2) ("B".data) = none ∧
      choose_next_pattern (3/2) ("C".data) = none) ∧
    ("A".data ∈ drumPatternKeys) ∧ (0 : ℚ) ≤ 1/2 ∧ (1/2 : ℚ) < 1 ∧
    (choose_next_pattern (1/2) ("A".data)).isSome :=
  ⟨rfl,
   (choose_next_pattern_props (fun _ => 0) (fun _ => 0)).1 (2/5) ("B".data) _ rfl,
   by norm_num,
   (choose_next_pattern_props (fun _ => 0) (fun _ => 0)).2.1 (3/2) (by norm_num),
   by decide, by norm_num, by norm_num,
   (choose_next_pattern_props (fun _ => 0) (fun _ => 0)).2.2.1 ("A".data) (by decide)
     (1/2) (by norm_num) (by norm_num)⟩
